import Mathlib

/-!
# Verification of the auggie-rs workspace sync core

A shallow embedding of the Rust sources under `src/`:

* `src/workspace/scanner.rs` — chunking (`split_content_into_chunks`),
  per-file blob production (`process_file`), incremental scanning
  (`scan_workspace_incremental`), `base_path_for_cached_path`;
* `src/workspace/cache.rs` — `BlobsCache` with its forward/reverse maps,
  `update`, `remove`, `compute_blob_name`;
* `src/workspace/upload.rs` — `create_upload_batches`,
  `upload_batch_with_fallback`;
* `src/workspace/sync.rs` + `src/workspace/mod.rs` — `sync_incremental`,
  `remove_deleted_from_cache`, `mark_files_as_uploaded`;
* `src/api/types.rs` — `ApiStatus` with `from_http_status`, `is_fatal`,
  `is_retryable`;
* `src/startup/model_resolver.rs` — `resolve_model`,
  `resolve_model_with_fallback`.

Rust `String` content is modelled as `List Char`; `str::len` (UTF-8 byte
count) as `utf8Len`.  SHA-256 is kept as an explicit function parameter
`sha : List Nat → String` (the hash itself is irrelevant to every claim;
only which bytes are hashed matters).  HashMaps are modelled as
association lists; filesystem walks as explicit lists of walked files;
the HTTP client as an oracle `Nat → Option (List String)` giving the
response of the i-th `batch_upload` call (`none` = transport error).
A Rust panic is modelled as an `Option.none` result.
-/

/-! ## UTF-8 byte model -/

/-- The UTF-8 encoding of one scalar value, as a list of byte values.
Models how Rust's `String` stores a `char`. -/
def charBytes (c : Char) : List Nat :=
  let n := c.toNat
  if n < 0x80 then [n]
  else if n < 0x800 then [0xC0 + n / 64, 0x80 + n % 64]
  else if n < 0x10000 then [0xE0 + n / 4096, 0x80 + n / 64 % 64, 0x80 + n % 64]
  else [0xF0 + n / 262144, 0x80 + n / 4096 % 64, 0x80 + n / 64 % 64, 0x80 + n % 64]

/-- The UTF-8 bytes of a string content (Rust `str::as_bytes`). -/
def utf8Bytes (s : List Char) : List Nat :=
  (s.map charBytes).flatten

/-- Rust `str::len`: the number of UTF-8 bytes. -/
def utf8Len (s : List Char) : Nat :=
  (utf8Bytes s).length

theorem utf8Bytes_nil : utf8Bytes [] = [] := rfl

theorem utf8Bytes_append (a b : List Char) :
    utf8Bytes (a ++ b) = utf8Bytes a ++ utf8Bytes b := by
  simp [utf8Bytes]

theorem utf8Len_nil : utf8Len [] = 0 := rfl

theorem utf8Len_append (a b : List Char) :
    utf8Len (a ++ b) = utf8Len a + utf8Len b := by
  simp [utf8Len, utf8Bytes_append]

theorem utf8Len_replicate_a (n : Nat) :
    utf8Len (List.replicate n 'a') = n := by
  induction n with
  | zero => rfl
  | succ k ih =>
    have : List.replicate (k + 1) 'a' = 'a' :: List.replicate k 'a' := rfl
    rw [this]
    have hc : charBytes 'a' = [97] := by decide
    simp only [utf8Len, utf8Bytes, List.map_cons, List.flatten, hc] at *
    simpa using ih

/-! ## `split_inclusive('\n')` (Rust `str::split_inclusive`) -/

/-- Rust's `content.split_inclusive('\n')`: splits after each `'\n'`,
keeping the separator; the empty string yields no segments. -/
def splitInclusiveNl : List Char → List (List Char)
  | [] => []
  | c :: rest =>
    if c = '\n' then [c] :: splitInclusiveNl rest
    else
      match splitInclusiveNl rest with
      | [] => [[c]]
      | y :: ys => (c :: y) :: ys

theorem splitInclusiveNl_ne_nil {l : List Char} (h : l ≠ []) :
    splitInclusiveNl l ≠ [] := by
  match l with
  | [] => exact absurd rfl h
  | c :: rest =>
    unfold splitInclusiveNl
    by_cases hc : c = '\n'
    · simp [hc]
    · simp only [hc, if_false]
      match splitInclusiveNl rest with
      | [] => simp
      | y :: ys => simp

theorem splitInclusiveNl_eq_nil_iff {l : List Char} :
    splitInclusiveNl l = [] ↔ l = [] := by
  constructor
  · intro h
    by_contra hne
    exact splitInclusiveNl_ne_nil hne h
  · intro h; subst h; rfl

theorem join_splitInclusiveNl (l : List Char) :
    (splitInclusiveNl l).flatten = l := by
  induction l with
  | nil => rfl
  | cons c rest ih =>
    unfold splitInclusiveNl
    by_cases hc : c = '\n'
    · simp [hc, ih]
    · simp only [hc, if_false]
      cases hrest : splitInclusiveNl rest with
      | nil =>
        have : rest = [] := splitInclusiveNl_eq_nil_iff.mp hrest
        simp [this]
      | cons y ys =>
        rw [hrest] at ih
        simp only [List.flatten] at ih ⊢
        simp [← ih]

/-- Every segment produced by `splitInclusiveNl` is nonempty. -/
theorem splitInclusiveNl_mem_ne_nil {l : List Char} {s : List Char}
    (h : s ∈ splitInclusiveNl l) : s ≠ [] := by
  induction l generalizing s with
  | nil => simp [splitInclusiveNl] at h
  | cons c rest ih =>
    unfold splitInclusiveNl at h
    by_cases hc : c = '\n'
    · simp only [hc, if_pos rfl] at h
      rcases List.mem_cons.mp h with h1 | h1
      · subst h1; simp
      · exact ih h1
    · simp only [hc, if_false] at h
      cases hrest : splitInclusiveNl rest with
      | nil => rw [hrest] at h; simp at h; subst h; simp
      | cons y ys =>
        rw [hrest] at h
        rcases List.mem_cons.mp h with h1 | h1
        · subst h1; simp
        · exact ih (by rw [hrest]; exact List.mem_cons_of_mem _ h1)

/-- A nonempty line with no interior newline is a single segment. -/
theorem splitInclusiveNl_single {t : List Char} {c : Char}
    (ht : '\n' ∉ t) : splitInclusiveNl (t ++ [c]) = [t ++ [c]] := by
  induction t with
  | nil =>
    simp only [List.nil_append]
    unfold splitInclusiveNl
    by_cases hc : c = '\n' <;> simp [hc, splitInclusiveNl]
  | cons d t' ih =>
    have hd : d ≠ '\n' := fun h => ht (by simp [h])
    have ht' : '\n' ∉ t' := fun h => ht (by simp [h])
    simp only [List.cons_append]
    unfold splitInclusiveNl
    simp only [hd, if_false]
    rw [ih ht']

theorem splitInclusiveNl_cons_ne {d : Char} (hd : d ≠ '\n') (rest : List Char) :
    splitInclusiveNl (d :: rest) =
      match splitInclusiveNl rest with
      | [] => [[d]]
      | y :: ys => (d :: y) :: ys := by
  conv_lhs => unfold splitInclusiveNl
  simp [hd]

/-- Splitting distributes over an append whose left part ends in `'\n'`. -/
theorem splitInclusiveNl_append_newline {t : List Char} (b : List Char)
    (ht : '\n' ∉ t) :
    splitInclusiveNl ((t ++ ['\n']) ++ b) =
      splitInclusiveNl (t ++ ['\n']) ++ splitInclusiveNl b := by
  induction t with
  | nil => rfl
  | cons d t' ih =>
    have hd : d ≠ '\n' := fun h => ht (by simp [h])
    have ht' : '\n' ∉ t' := fun h => ht (by simp [h])
    have hne : splitInclusiveNl (t' ++ ['\n']) ≠ [] :=
      splitInclusiveNl_ne_nil (by simp)
    simp only [List.cons_append]
    rw [splitInclusiveNl_cons_ne hd, splitInclusiveNl_cons_ne hd, ih ht']
    cases hsp : splitInclusiveNl (t' ++ ['\n']) with
    | nil => exact absurd hsp hne
    | cons y ys => simp

/-- Segments of a split: each is a (possibly newline-terminated) line with
no interior newline. -/
theorem splitInclusiveNl_mem_line {l : List Char} :
    ∀ s ∈ splitInclusiveNl l, ∃ u c, s = u ++ [c] ∧ '\n' ∉ u := by
  induction l with
  | nil => simp [splitInclusiveNl]
  | cons c rest ih =>
    intro s hs
    by_cases hc : c = '\n'
    · subst hc
      unfold splitInclusiveNl at hs
      simp only [if_pos rfl] at hs
      rcases List.mem_cons.mp hs with h1 | h1
      · exact ⟨[], '\n', by simp [h1]⟩
      · exact ih s h1
    · rw [splitInclusiveNl_cons_ne hc] at hs
      cases hrest : splitInclusiveNl rest with
      | nil =>
        rw [hrest] at hs
        simp at hs
        exact ⟨[], c, by simp [hs]⟩
      | cons y ys =>
        rw [hrest] at hs
        rcases List.mem_cons.mp hs with h1 | h1
        · obtain ⟨u, d, hy, hu⟩ := ih y (by rw [hrest]; exact List.mem_cons_self _ _)
          refine ⟨c :: u, d, ?_, ?_⟩
          · simp [h1, hy]
          · intro hmem
            rcases List.mem_cons.mp hmem with h2 | h2
            · exact hc h2.symm
            · exact hu h2
        · exact ih s (by rw [hrest]; exact List.mem_cons_of_mem _ h1)

theorem splitInclusiveNl_cons_nl (rest : List Char) :
    splitInclusiveNl ('\n' :: rest) = ['\n'] :: splitInclusiveNl rest := by
  conv_lhs => unfold splitInclusiveNl
  simp

/-- All segments except the last end with a newline. -/
theorem splitInclusiveNl_dropLast_nl {l : List Char} :
    ∀ s ∈ (splitInclusiveNl l).dropLast, s.getLast? = some '\n' := by
  induction l with
  | nil => simp [splitInclusiveNl]
  | cons c rest ih =>
    intro s hs
    by_cases hc : c = '\n'
    · subst hc
      rw [splitInclusiveNl_cons_nl] at hs
      cases hrest : splitInclusiveNl rest with
      | nil => rw [hrest] at hs; simp at hs
      | cons y ys =>
        rw [hrest, List.dropLast_cons_of_ne_nil (by simp)] at hs
        rcases List.mem_cons.mp hs with h1 | h1
        · simp [h1]
        · exact ih s (by rw [hrest]; exact h1)
    · rw [splitInclusiveNl_cons_ne hc] at hs
      cases hrest : splitInclusiveNl rest with
      | nil => rw [hrest] at hs; simp at hs
      | cons y ys =>
        rw [hrest] at hs
        cases hys : ys with
        | nil => rw [hys] at hs; simp at hs
        | cons z zs =>
          rw [hys, List.dropLast_cons_of_ne_nil (by simp)] at hs
          rcases List.mem_cons.mp hs with h1 | h1
          · have hy : y ∈ (splitInclusiveNl rest).dropLast := by
              rw [hrest, hys, List.dropLast_cons_of_ne_nil (by simp)]
              exact List.mem_cons_self _ _
            have hylast := ih y hy
            have hyne : y ≠ [] :=
              splitInclusiveNl_mem_ne_nil (by rw [hrest]; exact List.mem_cons_self _ _)
            subst h1
            cases y with
            | nil => exact absurd rfl hyne
            | cons b bs => simpa using hylast
          · refine ih s ?_
            rw [hrest, hys, List.dropLast_cons_of_ne_nil (by simp)]
            exact List.mem_cons_of_mem _ h1

/-- Splitting distributes over any append whose left part's last char is
`'\n'`. -/
theorem splitInclusiveNl_append_of_last_nl :
    ∀ (a b : List Char), a.getLast? = some '\n' →
      splitInclusiveNl (a ++ b) = splitInclusiveNl a ++ splitInclusiveNl b := by
  intro a
  induction a with
  | nil => intro b h; simp at h
  | cons c a' ih =>
    intro b h
    cases ha' : a' with
    | nil =>
      subst ha'
      simp only [List.getLast?_singleton, Option.some.injEq] at h
      subst h
      rw [List.cons_append, List.nil_append, splitInclusiveNl_cons_nl,
        splitInclusiveNl_cons_nl]
      rfl
    | cons d a'' =>
      subst ha'
      have hlast : (d :: a'').getLast? = some '\n' := by
        rwa [List.getLast?_cons_cons] at h
      by_cases hc : c = '\n'
      · subst hc
        rw [List.cons_append, splitInclusiveNl_cons_nl, splitInclusiveNl_cons_nl,
          ih _ hlast]
        rfl
      · have hne : splitInclusiveNl (d :: a'') ≠ [] := splitInclusiveNl_ne_nil (by simp)
        rw [List.cons_append, splitInclusiveNl_cons_ne hc, splitInclusiveNl_cons_ne hc,
          ih _ hlast]
        cases hsp : splitInclusiveNl (d :: a'') with
        | nil => exact absurd hsp hne
        | cons y ys => simp

/-! ## Chunking (`split_content_into_chunks`, scanner.rs:41-76) -/

/-- `MAX_BLOB_SIZE` (scanner.rs:21). -/
def MAX_BLOB_SIZE : Nat := 128 * 1024

/-- `MAX_LINES_PER_BLOB` (scanner.rs:24). -/
def MAX_LINES_PER_BLOB : Nat := 800

/-- `MAX_READABLE_FILE_SIZE` (scanner.rs:28). -/
def MAX_READABLE_FILE_SIZE : Nat := 1024 * 1024

/-- The chunking loop of `split_content_into_chunks` (scanner.rs:51-69):
fold over the inclusive line segments, sealing the current chunk when
adding the next line would exceed either bound and the chunk is
non-empty. -/
def splitLoop : List (List Char) → List Char → Nat → Nat → List (List Char)
  | [], current, _, _ => if current.isEmpty then [] else [current]
  | line :: rest, current, lines, bytes =>
    let lineBytes := utf8Len line
    if ¬ current = [] ∧ (MAX_LINES_PER_BLOB ≤ lines ∨ MAX_BLOB_SIZE < bytes + lineBytes)
    then current :: splitLoop rest line 1 lineBytes
    else splitLoop rest (current ++ line) (lines + 1) (bytes + lineBytes)

/-- `split_content_into_chunks` (scanner.rs:41-76). -/
def split_content_into_chunks (content : List Char) : List (List Char) :=
  if content.isEmpty then [[]]
  else
    let chunks := splitLoop (splitInclusiveNl content) [] 0 0
    if chunks.isEmpty then [[]] else chunks

theorem splitLoop_flatten :
    ∀ (segs : List (List Char)) (current : List Char) (lines bytes : Nat),
      (splitLoop segs current lines bytes).flatten = current ++ segs.flatten := by
  intro segs
  induction segs with
  | nil =>
    intro current lines bytes
    by_cases h : current.isEmpty
    · have : current = [] := by simpa using h
      simp [splitLoop, h, this]
    · simp [splitLoop, h]
  | cons line rest ih =>
    intro current lines bytes
    unfold splitLoop
    by_cases h : ¬ current = [] ∧
        (MAX_LINES_PER_BLOB ≤ lines ∨ MAX_BLOB_SIZE < bytes + utf8Len line)
    · simp only [if_pos h, List.flatten_cons, ih]
    · simp only [if_neg h, ih]
      simp [List.append_assoc]

theorem split_content_into_chunks_flatten (content : List Char) :
    (split_content_into_chunks content).flatten = content := by
  unfold split_content_into_chunks
  by_cases h : content.isEmpty
  · have : content = [] := by simpa using h
    simp [h, this]
  · simp only [h, if_false, Bool.false_eq_true]
    have hj : (splitLoop (splitInclusiveNl content) [] 0 0).flatten
        = content := by
      rw [splitLoop_flatten, join_splitInclusiveNl, List.nil_append]
    by_cases h2 : (splitLoop (splitInclusiveNl content) [] 0 0).isEmpty
    · have h3 : splitLoop (splitInclusiveNl content) [] 0 0 = [] := by simpa using h2
      rw [h3] at hj
      simp at hj
      exact absurd (by simp [hj] : content.isEmpty = true) h
    · simp [h2, hj]

theorem splitLoop_ne_nil :
    ∀ (segs : List (List Char)) (current : List Char) (lines bytes : Nat),
      (∀ s ∈ segs, s ≠ []) → (current ≠ [] ∨ segs ≠ []) →
      splitLoop segs current lines bytes ≠ [] := by
  intro segs
  induction segs with
  | nil =>
    intro current lines bytes _ hne
    rcases hne with hne | hne
    · simp [splitLoop, hne]
    · exact absurd rfl hne
  | cons line rest ih =>
    intro current lines bytes hsegs _
    have hline : line ≠ [] := hsegs line (List.mem_cons_self _ _)
    unfold splitLoop
    by_cases h : ¬ current = [] ∧
        (MAX_LINES_PER_BLOB ≤ lines ∨ MAX_BLOB_SIZE < bytes + utf8Len line)
    · simp [if_pos h]
    · simp only [if_neg h]
      exact ih (current ++ line) _ _
        (fun s hs => hsegs s (List.mem_cons_of_mem _ hs))
        (Or.inl (by simp [hline]))

theorem splitLoop_good :
    ∀ (segs : List (List Char)) (current : List Char) (lines bytes : Nat),
      (∀ s ∈ segs, ∃ u c, s = u ++ [c] ∧ '\n' ∉ u) →
      (∀ s ∈ segs.dropLast, s.getLast? = some '\n') →
      (segs ≠ [] → current = [] ∨ current.getLast? = some '\n') →
      (splitInclusiveNl current).length = lines →
      utf8Len current = bytes →
      lines ≤ MAX_LINES_PER_BLOB →
      (2 ≤ lines → bytes ≤ MAX_BLOB_SIZE) →
      ∀ ch ∈ splitLoop segs current lines bytes,
        (splitInclusiveNl ch).length ≤ MAX_LINES_PER_BLOB ∧
        (2 ≤ (splitInclusiveNl ch).length → utf8Len ch ≤ MAX_BLOB_SIZE) := by
  intro segs
  induction segs with
  | nil =>
    intro current lines bytes _ _ _ h1 h2 h3 h4 ch hch
    by_cases hc : current.isEmpty
    · simp [splitLoop, hc] at hch
    · simp only [splitLoop, hc, if_false, Bool.false_eq_true, List.mem_singleton] at hch
      subst hch
      exact ⟨h1 ▸ h3, fun hl => h2 ▸ h4 (h1 ▸ hl)⟩
  | cons line rest ih =>
    intro current lines bytes hsegs hdrop hcur h1 h2 h3 h4 ch hch
    obtain ⟨u, c, hline, hu⟩ := hsegs line (List.mem_cons_self _ _)
    have hlinene : line ≠ [] := by simp [hline]
    have hsplitline : splitInclusiveNl line = [line] := by
      rw [hline]; exact splitInclusiveNl_single hu
    have hsegs' : ∀ s ∈ rest, ∃ u c, s = u ++ [c] ∧ '\n' ∉ u :=
      fun s hs => hsegs s (List.mem_cons_of_mem _ hs)
    have hdrop' : ∀ s ∈ rest.dropLast, s.getLast? = some '\n' := by
      intro s hs
      cases hrest : rest with
      | nil => rw [hrest] at hs; simp at hs
      | cons r rs =>
        refine hdrop s ?_
        rw [hrest, List.dropLast_cons_of_ne_nil (by simp)]
        exact List.mem_cons_of_mem _ (hrest ▸ hs)
    have hlast_line : rest ≠ [] → line.getLast? = some '\n' := by
      intro hrest
      refine hdrop line ?_
      rw [List.dropLast_cons_of_ne_nil hrest]
      exact List.mem_cons_self _ _
    unfold splitLoop at hch
    by_cases h : ¬ current = [] ∧
        (MAX_LINES_PER_BLOB ≤ lines ∨ MAX_BLOB_SIZE < bytes + utf8Len line)
    · simp only [if_pos h, List.mem_cons] at hch
      rcases hch with hch | hch
      · subst hch
        exact ⟨h1 ▸ h3, fun hl => h2 ▸ h4 (h1 ▸ hl)⟩
      · refine ih line 1 (utf8Len line) hsegs' hdrop' ?_ ?_ rfl ?_ ?_ ch hch
        · intro hrest; exact Or.inr (hlast_line hrest)
        · rw [hsplitline]; rfl
        · simp [MAX_LINES_PER_BLOB]
        · omega
    · simp only [if_neg h] at hch
      have hsl : splitInclusiveNl (current ++ line) =
          splitInclusiveNl current ++ [line] := by
        by_cases hcur0 : current = []
        · subst hcur0; simp [hsplitline, splitInclusiveNl]
        · rcases hcur (by simp) with hcc | hcc
          · exact absurd hcc hcur0
          · rw [splitInclusiveNl_append_of_last_nl current line hcc, hsplitline]
      have hnotand :
          current = [] ∨ (lines < MAX_LINES_PER_BLOB ∧
            bytes + utf8Len line ≤ MAX_BLOB_SIZE) := by
        by_cases hcur0 : current = []
        · exact Or.inl hcur0
        · right
          rcases not_and_or.mp h with hx | hx
          · exact absurd (not_not.mp hx) hcur0
          · push_neg at hx
            exact ⟨hx.1, hx.2⟩
      have hlines0 : current = [] → lines = 0 := by
        intro hcur0; rw [hcur0] at h1; simpa using h1.symm
      refine ih (current ++ line) (lines + 1) (bytes + utf8Len line)
        hsegs' hdrop' ?_ ?_ ?_ ?_ ?_ ch hch
      · intro hrest
        right
        rw [List.getLast?_append]
        rw [hlast_line hrest]
        rfl
      · rw [hsl, List.length_append, h1]
        rfl
      · rw [utf8Len_append, h2]
      · have hM : MAX_LINES_PER_BLOB = 800 := rfl
        rcases hnotand with hx | hx
        · have := hlines0 hx; omega
        · have := hx.1; omega
      · intro hge
        rcases hnotand with hx | hx
        · have := hlines0 hx
          omega
        · exact hx.2

theorem splitLoop_small :
    ∀ (segs : List (List Char)) (current : List Char) (lines bytes : Nat),
      (∀ s ∈ segs, utf8Len s ≤ MAX_BLOB_SIZE) →
      utf8Len current = bytes →
      bytes ≤ MAX_BLOB_SIZE →
      ∀ ch ∈ splitLoop segs current lines bytes, utf8Len ch ≤ MAX_BLOB_SIZE := by
  intro segs
  induction segs with
  | nil =>
    intro current lines bytes _ h2 hb ch hch
    by_cases hc : current.isEmpty
    · simp [splitLoop, hc] at hch
    · simp only [splitLoop, hc, if_false, Bool.false_eq_true, List.mem_singleton] at hch
      subst hch
      exact h2 ▸ hb
  | cons line rest ih =>
    intro current lines bytes hsegs h2 hb ch hch
    have hlineb : utf8Len line ≤ MAX_BLOB_SIZE := hsegs line (List.mem_cons_self _ _)
    have hsegs' : ∀ s ∈ rest, utf8Len s ≤ MAX_BLOB_SIZE :=
      fun s hs => hsegs s (List.mem_cons_of_mem _ hs)
    unfold splitLoop at hch
    by_cases h : ¬ current = [] ∧
        (MAX_LINES_PER_BLOB ≤ lines ∨ MAX_BLOB_SIZE < bytes + utf8Len line)
    · simp only [if_pos h, List.mem_cons] at hch
      rcases hch with hch | hch
      · subst hch; exact h2 ▸ hb
      · exact ih line 1 (utf8Len line) hsegs' rfl hlineb ch hch
    · simp only [if_neg h] at hch
      have hnew : bytes + utf8Len line ≤ MAX_BLOB_SIZE := by
        by_cases hcur0 : current = []
        · have : bytes = 0 := by rw [hcur0] at h2; simpa using h2.symm
          omega
        · rcases not_and_or.mp h with hx | hx
          · exact absurd (not_not.mp hx) hcur0
          · push_neg at hx
            exact hx.2
      exact ih (current ++ line) (lines + 1) (bytes + utf8Len line) hsegs'
        (by rw [utf8Len_append, h2]) hnew ch hch

/-- Bounds for every produced chunk: at most 800 lines, and at most
128 KiB whenever the chunk holds at least two lines. -/
theorem split_content_into_chunks_bounds (content : List Char) :
    ∀ ch ∈ split_content_into_chunks content,
      (splitInclusiveNl ch).length ≤ MAX_LINES_PER_BLOB ∧
      (2 ≤ (splitInclusiveNl ch).length → utf8Len ch ≤ MAX_BLOB_SIZE) := by
  intro ch hch
  unfold split_content_into_chunks at hch
  by_cases h : content.isEmpty
  · simp only [h, if_true, List.mem_singleton] at hch
    subst hch
    refine ⟨?_, ?_⟩
    · simp [splitInclusiveNl, MAX_LINES_PER_BLOB]
    · intro h2; simp [splitInclusiveNl] at h2
  · simp only [h, if_false, Bool.false_eq_true] at hch
    have hne : splitLoop (splitInclusiveNl content) [] 0 0 ≠ [] := by
      refine splitLoop_ne_nil _ _ _ _ ?_ (Or.inr ?_)
      · intro s hs; exact splitInclusiveNl_mem_ne_nil hs
      · exact splitInclusiveNl_ne_nil (by simpa using h)
    rw [if_neg (by simpa using hne)] at hch
    refine splitLoop_good (splitInclusiveNl content) [] 0 0
      splitInclusiveNl_mem_line splitInclusiveNl_dropLast_nl ?_ rfl rfl ?_ ?_ ch hch
    · intro _; exact Or.inl rfl
    · simp [MAX_LINES_PER_BLOB]
    · omega

/-- If every line of the content fits the byte cap, every chunk does. -/
theorem split_content_into_chunks_small (content : List Char)
    (hl : ∀ s ∈ splitInclusiveNl content, utf8Len s ≤ MAX_BLOB_SIZE) :
    ∀ ch ∈ split_content_into_chunks content, utf8Len ch ≤ MAX_BLOB_SIZE := by
  intro ch hch
  unfold split_content_into_chunks at hch
  by_cases h : content.isEmpty
  · simp only [h, if_true, List.mem_singleton] at hch
    subst hch
    simp [utf8Len_nil]
  · simp only [h, if_false, Bool.false_eq_true] at hch
    have hne : splitLoop (splitInclusiveNl content) [] 0 0 ≠ [] := by
      refine splitLoop_ne_nil _ _ _ _ ?_ (Or.inr ?_)
      · intro s hs; exact splitInclusiveNl_mem_ne_nil hs
      · exact splitInclusiveNl_ne_nil (by simpa using h)
    rw [if_neg (by simpa using hne)] at hch
    exact splitLoop_small (splitInclusiveNl content) [] 0 0 hl rfl (by simp) ch hch

/-! ## Blob identity and per-file processing (cache.rs:199-205, scanner.rs:197-278) -/

/-- `FileBlob` (cache.rs:29-35). -/
structure FileBlob where
  path : String
  content : List Char
  blob_name : String
  mtime : Nat
deriving DecidableEq, Repr

/-- `compute_blob_name` (cache.rs:199-205): SHA-256 over the UTF-8 bytes
of the relative path followed by the content bytes.  `sha` is the
SHA-256-to-lowercase-hex function, kept abstract. -/
def compute_blob_name (sha : List Nat → String) (relative_path : String)
    (content : List Char) : String :=
  sha (utf8Bytes relative_path.data ++ utf8Bytes content)

/-- The pure core of `process_file` (scanner.rs:252-278): chunk the
content and emit one `FileBlob` per chunk.  The earlier I/O steps of
`process_file` (metadata, size ceiling, UTF-8 check) are modelled at the
scan level: a file that fails them contributes no blobs. -/
def process_file (sha : List Nat → String) (relative_path : String)
    (content : List Char) (mtime : Nat) : List FileBlob :=
  let chunks := split_content_into_chunks content
  if chunks.length = 1 then
    [{ path := relative_path, content := chunks.headI,
       blob_name := compute_blob_name sha relative_path chunks.headI,
       mtime := mtime }]
  else
    chunks.enum.map (fun ic =>
      let chunk_path :=
        relative_path ++ "#chunk" ++ toString (ic.1 + 1) ++ "of" ++
          toString chunks.length
      { path := chunk_path, content := ic.2,
        blob_name := compute_blob_name sha chunk_path ic.2, mtime := mtime })

/-! ## `base_path_for_cached_path` (scanner.rs:34-39) -/

/-- The pattern `"#chunk"` searched by `path.find("#chunk")`. -/
def chunkMarker : List Char := ['#', 'c', 'h', 'u', 'n', 'k']

/-- Rust `str::find` for a fixed pattern: index of the first occurrence. -/
def findSubAux (pat : List Char) : List Char → Option Nat
  | [] => if pat.isEmpty then some 0 else none
  | c :: rest =>
    if pat.isPrefixOf (c :: rest) then some 0
    else (findSubAux pat rest).map (· + 1)

/-- List-level `base_path_for_cached_path`: everything before the first
`"#chunk"`. -/
def basePathList (l : List Char) : List Char :=
  match findSubAux chunkMarker l with
  | some i => l.take i
  | none => l

/-- `base_path_for_cached_path` (scanner.rs:34-39). -/
def base_path_for_cached_path (p : String) : String :=
  ⟨basePathList p.data⟩

theorem findSubAux_cons (pat : List Char) (c : Char) (rest : List Char) :
    findSubAux pat (c :: rest) =
      if pat.isPrefixOf (c :: rest) then some 0
      else (findSubAux pat rest).map (· + 1) := rfl

theorem findSubAux_some_prefix {pat s : List Char} {i : Nat}
    (h : findSubAux pat s = some i) : pat <+: s.drop i := by
  induction s generalizing i with
  | nil =>
    unfold findSubAux at h
    by_cases hp : pat.isEmpty
    · simp only [hp, if_true] at h
      cases h
      have hpe : pat = [] := by simpa using hp
      simp [hpe]
    · simp [hp] at h
  | cons c rest ih =>
    rw [findSubAux_cons] at h
    by_cases hp : pat.isPrefixOf (c :: rest)
    · simp only [hp, if_true] at h
      cases h
      simpa using List.isPrefixOf_iff_prefix.mp hp
    · simp only [hp, if_false, Bool.false_eq_true, Option.map_eq_some'] at h
      obtain ⟨i', hi', rfl⟩ := h
      simpa using ih hi'

theorem findSubAux_min {pat s : List Char} {i : Nat}
    (h : findSubAux pat s = some i) : ∀ j < i, ¬ pat <+: s.drop j := by
  induction s generalizing i with
  | nil =>
    unfold findSubAux at h
    by_cases hp : pat.isEmpty
    · simp only [hp, if_true] at h; cases h; omega
    · simp [hp] at h
  | cons c rest ih =>
    rw [findSubAux_cons] at h
    by_cases hp : pat.isPrefixOf (c :: rest)
    · simp only [hp, if_true] at h; cases h; omega
    · simp only [hp, if_false, Bool.false_eq_true, Option.map_eq_some'] at h
      obtain ⟨i', hi', rfl⟩ := h
      intro j hj
      cases j with
      | zero =>
        simp only [List.drop_zero]
        intro hpre
        exact hp (List.isPrefixOf_iff_prefix.mpr hpre)
      | succ j' =>
        simp only [List.drop_succ_cons]
        exact ih hi' j' (by omega)

theorem findSubAux_none_not_prefix {pat s : List Char} (hpat : pat ≠ [])
    (h : findSubAux pat s = none) : ∀ j, ¬ pat <+: s.drop j := by
  induction s with
  | nil =>
    intro j hpre
    rw [List.drop_nil] at hpre
    exact hpat (List.prefix_nil.mp hpre)
  | cons c rest ih =>
    rw [findSubAux_cons] at h
    by_cases hp : pat.isPrefixOf (c :: rest)
    · simp [hp] at h
    · simp only [hp, if_false, Bool.false_eq_true, Option.map_eq_none'] at h
      intro j
      cases j with
      | zero =>
        simp only [List.drop_zero]
        intro hpre
        exact hp (List.isPrefixOf_iff_prefix.mpr hpre)
      | succ j' =>
        simp only [List.drop_succ_cons]
        exact ih h j'

/-- The `"#chunk"` pattern cannot straddle the boundary of
`y ++ "#chunk" ++ rest`: if it is a prefix of the whole, it is already a
prefix of `y` (the key point is that `'#'` does not recur inside
`"chunk"`). -/
theorem chunkMarker_prefix_split {y rest : List Char} (hy : y ≠ [])
    (h : chunkMarker <+: y ++ (chunkMarker ++ rest)) : chunkMarker <+: y := by
  obtain ⟨t, ht⟩ := h
  rcases List.append_eq_append_iff.mp ht with ⟨a', h1, _⟩ | ⟨c', h1, _⟩
  · exact ⟨a', h1.symm⟩
  · cases hc' : c' with
    | nil =>
      rw [hc', List.append_nil] at h1
      rw [← h1]
    | cons e c'' =>
      exfalso
      subst hc'
      have hpre2 : (e :: c'') <+: chunkMarker ++ rest := by
        have h0 : y ++ (e :: c'') <+: y ++ (chunkMarker ++ rest) := by
          conv_lhs => rw [← h1]
          exact ⟨t, ht⟩
        exact (List.prefix_append_right_inj y).mp h0
      have he : e = '#' := by
        have : chunkMarker ++ rest = '#' :: (['c', 'h', 'u', 'n', 'k'] ++ rest) := rfl
        rw [this] at hpre2
        exact (List.cons_prefix_cons.mp hpre2).1
      cases hyc : y with
      | nil => exact hy hyc
      | cons f y' =>
        subst hyc
        have h2 : f :: (y' ++ e :: c'') = chunkMarker := by
          simpa using h1.symm
        have h3 : y' ++ e :: c'' = ['c', 'h', 'u', 'n', 'k'] := by
          have := h2
          simp only [chunkMarker] at this
          exact (List.cons_eq_cons.mp this).2
        have hmem : e ∈ ['c', 'h', 'u', 'n', 'k'] := by
          rw [← h3]
          exact List.mem_append_right _ (List.mem_cons_self _ _)
        rw [he] at hmem
        simp at hmem

theorem findSubAux_marker_append :
    ∀ (x rest : List Char),
      findSubAux chunkMarker (x ++ (chunkMarker ++ rest)) =
        some (match findSubAux chunkMarker x with
              | some i => i
              | none => x.length) := by
  intro x
  induction x with
  | nil =>
    intro rest
    have h1 : chunkMarker ++ rest = '#' :: (['c', 'h', 'u', 'n', 'k'] ++ rest) := rfl
    rw [List.nil_append, h1, findSubAux_cons,
      if_pos (List.isPrefixOf_iff_prefix.mpr (by rw [← h1]; exact List.prefix_append _ _))]
    rfl
  | cons c x' ih =>
    intro rest
    rw [List.cons_append, findSubAux_cons]
    by_cases hp : chunkMarker <+: (c :: x')
    · have hcond : chunkMarker.isPrefixOf (c :: (x' ++ (chunkMarker ++ rest))) = true := by
        apply List.isPrefixOf_iff_prefix.mpr
        rw [← List.cons_append]
        exact hp.trans (List.prefix_append _ _)
      rw [if_pos hcond]
      have hp' : chunkMarker.isPrefixOf (c :: x') = true :=
        List.isPrefixOf_iff_prefix.mpr hp
      rw [findSubAux_cons, if_pos hp']
    · have hnot : ¬ chunkMarker.isPrefixOf ((c :: x') ++ (chunkMarker ++ rest)) = true := by
        intro hcontra
        exact hp (chunkMarker_prefix_split (by simp)
          (List.isPrefixOf_iff_prefix.mp hcontra))
      rw [List.cons_append] at hnot
      rw [if_neg hnot, ih rest]
      have hp' : ¬ chunkMarker.isPrefixOf (c :: x') = true := by
        intro hcontra
        exact hp (List.isPrefixOf_iff_prefix.mp hcontra)
      rw [findSubAux_cons, if_neg hp']
      cases hfind : findSubAux chunkMarker x' with
      | some i => simp
      | none => simp

/-- Appending `"#chunk…"` to a path does not change its base path. -/
theorem basePathList_append_marker (x rest : List Char) :
    basePathList (x ++ (chunkMarker ++ rest)) = basePathList x := by
  unfold basePathList
  rw [findSubAux_marker_append x rest]
  cases hfind : findSubAux chunkMarker x with
  | some i =>
    have hle : i ≤ x.length := by
      by_contra hgt
      have hpre := findSubAux_some_prefix hfind
      rw [List.drop_eq_nil_of_le (by omega)] at hpre
      have : chunkMarker = [] := List.prefix_nil.mp hpre
      simp [chunkMarker] at this
    simp only []
    exact List.take_append_of_le_length hle
  | none =>
    simp only []
    rw [List.take_append_of_le_length (Nat.le_refl _), List.take_length]

/-- A base path contains no further occurrence of `"#chunk"`. -/
theorem findSubAux_basePathList (s : List Char) :
    findSubAux chunkMarker (basePathList s) = none := by
  unfold basePathList
  cases hfind : findSubAux chunkMarker s with
  | none => exact hfind
  | some i =>
    cases hfind2 : findSubAux chunkMarker (s.take i) with
    | none => rfl
    | some j =>
      exfalso
      have hpre := findSubAux_some_prefix hfind2
      have hlt : j < i := by
        by_contra hge
        rw [List.drop_eq_nil_of_le (by
          have := List.length_take_le i s
          omega : (s.take i).length ≤ j)] at hpre
        have : chunkMarker = [] := List.prefix_nil.mp hpre
        simp [chunkMarker] at this
      rw [List.drop_take] at hpre
      have hpre' : chunkMarker <+: s.drop j :=
        hpre.trans (List.take_prefix _ _)
      exact findSubAux_min hfind j hlt hpre'

theorem basePathList_idem (s : List Char) :
    basePathList (basePathList s) = basePathList s := by
  unfold basePathList
  rw [show findSubAux chunkMarker
      (match findSubAux chunkMarker s with
       | some i => s.take i
       | none => s) = none from findSubAux_basePathList s]

/-! ## Blob cache (cache.rs:49-195) -/

/-- `FileEntry` (cache.rs:49-57). -/
structure FileEntry where
  mtime : Nat
  blob_name : String
  content_seq : Nat
deriving DecidableEq, Repr

/-- Association-list model of a Rust `HashMap` lookup (`get`). -/
def mapFind {α : Type} : List (String × α) → String → Option α
  | [], _ => none
  | (k', v) :: rest, k => if k' = k then some v else mapFind rest k

/-- Association-list model of `HashMap::remove`'s effect on the map. -/
def mapErase {α : Type} : List (String × α) → String → List (String × α)
  | [], _ => []
  | (k', v) :: rest, k =>
    if k' = k then mapErase rest k else (k', v) :: mapErase rest k

/-- Association-list model of `HashMap::insert`. -/
def mapInsert {α : Type} (m : List (String × α)) (k : String) (v : α) :
    List (String × α) :=
  (k, v) :: mapErase m k

theorem mapFind_mapErase_self {α : Type} (m : List (String × α)) (k : String) :
    mapFind (mapErase m k) k = none := by
  induction m with
  | nil => rfl
  | cons kv rest ih =>
    obtain ⟨k0, v0⟩ := kv
    by_cases h0 : k0 = k
    · simpa [mapErase, h0] using ih
    · simpa [mapErase, mapFind, h0] using ih

theorem mapFind_mapErase_ne {α : Type} (m : List (String × α)) {k k' : String}
    (h : k ≠ k') : mapFind (mapErase m k) k' = mapFind m k' := by
  induction m with
  | nil => rfl
  | cons kv rest ih =>
    obtain ⟨k0, v0⟩ := kv
    by_cases h0 : k0 = k
    · subst h0
      have e2 : mapFind ((k0, v0) :: rest) k' = mapFind rest k' := by
        simp [mapFind, h]
      rw [show mapErase ((k0, v0) :: rest) k0 = mapErase rest k0 by
        simp [mapErase], ih, e2]
    · rw [show mapErase ((k0, v0) :: rest) k = (k0, v0) :: mapErase rest k by
        simp [mapErase, h0]]
      by_cases h1 : k0 = k'
      · simp [mapFind, h1]
      · simp [mapFind, h1, ih]

theorem mapFind_mapInsert_self {α : Type} (m : List (String × α)) (k : String)
    (v : α) : mapFind (mapInsert m k v) k = some v := by
  simp [mapInsert, mapFind]

theorem mapFind_mapInsert_ne {α : Type} (m : List (String × α)) {k k' : String}
    (v : α) (h : k ≠ k') : mapFind (mapInsert m k v) k' = mapFind m k' := by
  simp only [mapInsert, mapFind, if_neg h]
  exact mapFind_mapErase_ne m h

/-- `BlobsCache` (cache.rs:61-68): forward map `path_to_blob` and reverse
index `blob_to_path`. -/
structure BlobsCache where
  path_to_blob : List (String × FileEntry)
  blob_to_path : List (String × String)
deriving DecidableEq, Repr

/-- `BlobsCache::update` (cache.rs:132-148). -/
def BlobsCache.update (cache : BlobsCache) (path : String) (mtime : Nat)
    (blob_name : String) (content_seq : Nat) : BlobsCache :=
  let cache1 :=
    match mapFind cache.path_to_blob path with
    | some old_entry =>
      if old_entry.blob_name ≠ blob_name then
        { cache with blob_to_path := mapErase cache.blob_to_path old_entry.blob_name }
      else cache
    | none => cache
  { path_to_blob :=
      mapInsert cache1.path_to_blob path
        { mtime := mtime, blob_name := blob_name, content_seq := content_seq },
    blob_to_path := mapInsert cache1.blob_to_path blob_name path }

/-- `BlobsCache::remove` (cache.rs:151-156). -/
def BlobsCache.remove (cache : BlobsCache) (path : String) : BlobsCache :=
  match mapFind cache.path_to_blob path with
  | some entry =>
    { path_to_blob := mapErase cache.path_to_blob path,
      blob_to_path := mapErase cache.blob_to_path entry.blob_name }
  | none => cache

/-- The empty cache (`BlobsCache::default`). -/
def BlobsCache.empty : BlobsCache := { path_to_blob := [], blob_to_path := [] }

/-- One mutating cache operation, with arbitrary arguments. -/
inductive CacheOp where
  | update (path : String) (mtime : Nat) (blob_name : String) (content_seq : Nat)
  | remove (path : String)
deriving DecidableEq, Repr

def applyOp (cache : BlobsCache) : CacheOp → BlobsCache
  | .update path mtime blob_name content_seq =>
    cache.update path mtime blob_name content_seq
  | .remove path => cache.remove path

def applyOps (ops : List CacheOp) (cache : BlobsCache) : BlobsCache :=
  ops.foldl applyOp cache

/-- Forward/reverse mutual consistency, as the spec states it. -/
def CacheConsistent (cache : BlobsCache) : Prop :=
  ∀ b p, mapFind cache.blob_to_path b = some p ↔
    ∃ e, mapFind cache.path_to_blob p = some e ∧ e.blob_name = b

theorem mapFind_mapErase {α : Type} (m : List (String × α)) (k k' : String) :
    mapFind (mapErase m k) k' = if k' = k then none else mapFind m k' := by
  by_cases h : k' = k
  · subst h; simp [mapFind_mapErase_self]
  · simp [h, mapFind_mapErase_ne m (fun hc => h hc.symm)]

/-- Unfolding of `BlobsCache.update`: the forward map is always the plain
insert; the reverse map first drops the old blob name when it changed. -/
theorem BlobsCache.update_eq (c : BlobsCache) (path : String) (mtime : Nat)
    (blob : String) (seq : Nat) :
    c.update path mtime blob seq =
      { path_to_blob := mapInsert c.path_to_blob path
          { mtime := mtime, blob_name := blob, content_seq := seq },
        blob_to_path := mapInsert
          (match mapFind c.path_to_blob path with
           | some oe =>
             if oe.blob_name ≠ blob then mapErase c.blob_to_path oe.blob_name
             else c.blob_to_path
           | none => c.blob_to_path) blob path } := by
  unfold BlobsCache.update
  cases mapFind c.path_to_blob path with
  | none => rfl
  | some oe => by_cases h : oe.blob_name ≠ blob <;> simp [h]

/-- Auxiliary invariant for the cache induction: consistency plus both
maps agreeing with the ambient blob-name-to-path assignment `f`. -/
def CacheAgrees (f : String → String) (c : BlobsCache) : Prop :=
  (∀ b p, mapFind c.blob_to_path b = some p → f b = p) ∧
  (∀ p e, mapFind c.path_to_blob p = some e → f e.blob_name = p) ∧
  CacheConsistent c

theorem CacheAgrees_update {f : String → String} {c : BlobsCache}
    (h : CacheAgrees f c) (path : String) (mtime : Nat) (blob : String)
    (seq : Nat) (hf : f blob = path) :
    CacheAgrees f (c.update path mtime blob seq) := by
  obtain ⟨hrev, hfwd, hcons⟩ := h
  rw [BlobsCache.update_eq]
  set rev1 := (match mapFind c.path_to_blob path with
    | some oe =>
      if oe.blob_name ≠ blob then mapErase c.blob_to_path oe.blob_name
      else c.blob_to_path
    | none => c.blob_to_path) with hrev1
  have hrev1_sub : ∀ b p', mapFind rev1 b = some p' →
      mapFind c.blob_to_path b = some p' := by
    intro b p' hb
    rw [hrev1] at hb
    cases hold : mapFind c.path_to_blob path with
    | none => simp only [hold] at hb; exact hb
    | some oe =>
      simp only [hold] at hb
      by_cases hne : oe.blob_name ≠ blob
      · rw [if_pos hne, mapFind_mapErase] at hb
        by_cases hbe : b = oe.blob_name
        · rw [if_pos hbe] at hb; cases hb
        · rwa [if_neg hbe] at hb
      · rwa [if_neg hne] at hb
  constructor
  · -- reverse map agrees with f
    intro b p' hb
    by_cases hbb : b = blob
    · subst hbb
      rw [mapFind_mapInsert_self] at hb
      cases hb
      exact hf
    · rw [mapFind_mapInsert_ne _ _ (fun hc => hbb hc.symm)] at hb
      exact hrev b p' (hrev1_sub b p' hb)
  constructor
  · -- forward map agrees with f
    intro p' e' he'
    by_cases hpp : p' = path
    · subst hpp
      rw [mapFind_mapInsert_self] at he'
      cases he'
      exact hf
    · rw [mapFind_mapInsert_ne _ _ (fun hc => hpp hc.symm)] at he'
      exact hfwd p' e' he'
  · -- consistency
    intro b p'
    constructor
    · intro hb
      by_cases hbb : b = blob
      · rw [hbb, mapFind_mapInsert_self] at hb
        have hpp : path = p' := Option.some.inj hb
        refine ⟨{ mtime := mtime, blob_name := blob, content_seq := seq }, ?_, ?_⟩
        · rw [← hpp, mapFind_mapInsert_self]
        · rw [hbb]
      · rw [mapFind_mapInsert_ne _ _ (fun hc => hbb hc.symm)] at hb
        have hb' := hrev1_sub b p' hb
        obtain ⟨e, he, hbe⟩ := (hcons b p').mp hb'
        by_cases hpp : p' = path
        · -- impossible: the old entry for `path` had blob name `b ≠ blob`,
          -- so `rev1` erased `b` before the insert
          exfalso
          rw [hpp] at he
          rw [hrev1] at hb
          simp only [he] at hb
          rw [if_pos (by rw [hbe]; exact hbb)] at hb
          rw [hbe] at hb
          rw [mapFind_mapErase_self] at hb
          cases hb
        · refine ⟨e, ?_, hbe⟩
          rw [mapFind_mapInsert_ne _ _ (fun hc => hpp hc.symm)]
          exact he
    · rintro ⟨e, he, hbe⟩
      by_cases hpp : p' = path
      · rw [hpp, mapFind_mapInsert_self] at he
        have he' : e = { mtime := mtime, blob_name := blob, content_seq := seq } :=
          (Option.some.inj he).symm
        have hbb : b = blob := by rw [← hbe, he']
        rw [hbb, hpp, mapFind_mapInsert_self]
      · rw [mapFind_mapInsert_ne _ _ (fun hc => hpp hc.symm)] at he
        have hbb : b ≠ blob := by
          intro hc
          have h2 := hfwd p' e he
          rw [hbe, hc, hf] at h2
          exact hpp h2.symm
        rw [mapFind_mapInsert_ne _ _ (fun hc => hbb hc.symm)]
        have hrevb : mapFind c.blob_to_path b = some p' :=
          (hcons b p').mpr ⟨e, he, hbe⟩
        rw [hrev1]
        cases hold : mapFind c.path_to_blob path with
        | none => simp only [hold]; exact hrevb
        | some oe =>
          simp only [hold]
          by_cases hne : oe.blob_name ≠ blob
          · rw [if_pos hne, mapFind_mapErase]
            by_cases hbe2 : b = oe.blob_name
            · exfalso
              have h1 : mapFind c.blob_to_path b = some path :=
                (hcons b path).mpr ⟨oe, hold, hbe2.symm⟩
              rw [hrevb] at h1
              exact hpp (Option.some.inj h1)
            · rw [if_neg hbe2]
              exact hrevb
          · rw [if_neg hne]
            exact hrevb

theorem CacheAgrees_remove {f : String → String} {c : BlobsCache}
    (h : CacheAgrees f c) (path : String) :
    CacheAgrees f (c.remove path) := by
  obtain ⟨hrev, hfwd, hcons⟩ := h
  unfold BlobsCache.remove
  cases hold : mapFind c.path_to_blob path with
  | none => exact ⟨hrev, hfwd, hcons⟩
  | some e =>
    constructor
    · intro b p' hb
      rw [mapFind_mapErase] at hb
      by_cases hbe : b = e.blob_name
      · rw [if_pos hbe] at hb; cases hb
      · rw [if_neg hbe] at hb
        exact hrev b p' hb
    constructor
    · intro p' e' he'
      rw [mapFind_mapErase] at he'
      by_cases hpe : p' = path
      · rw [if_pos hpe] at he'; cases he'
      · rw [if_neg hpe] at he'
        exact hfwd p' e' he'
    · intro b p'
      rw [mapFind_mapErase, mapFind_mapErase]
      by_cases hbe : b = e.blob_name
      · rw [if_pos hbe]
        constructor
        · intro hc; cases hc
        · rintro ⟨e', he', hbe'⟩
          by_cases hpe : p' = path
          · rw [if_pos hpe] at he'; cases he'
          · rw [if_neg hpe] at he'
            have h1 : mapFind c.blob_to_path b = some p' :=
              (hcons b p').mpr ⟨e', he', hbe'⟩
            have h2 : mapFind c.blob_to_path b = some path :=
              (hcons b path).mpr ⟨e, hold, hbe.symm⟩
            exfalso
            rw [h1] at h2
            exact hpe (Option.some.inj h2)
      · rw [if_neg hbe]
        by_cases hpe : p' = path
        · rw [if_pos hpe]
          subst hpe
          constructor
          · intro hb
            obtain ⟨e', he', hbe'⟩ := (hcons b p').mp hb
            rw [hold] at he'
            cases he'
            exact absurd hbe'.symm hbe
          · rintro ⟨e', he', _⟩
            cases he'
        · rw [if_neg hpe]
          exact hcons b p'

theorem CacheAgrees_empty (f : String → String) : CacheAgrees f BlobsCache.empty := by
  refine ⟨?_, ?_, ?_⟩
  · intro b p hb; cases hb
  · intro p e he; cases he
  · intro b p
    constructor
    · intro hb; cases hb
    · rintro ⟨e, he, _⟩; cases he

theorem CacheAgrees_applyOps {f : String → String} (ops : List CacheOp) :
    ∀ (c : BlobsCache), CacheAgrees f c →
      (∀ p m b s, CacheOp.update p m b s ∈ ops → f b = p) →
      CacheAgrees f (applyOps ops c) := by
  induction ops with
  | nil => intro c h _; exact h
  | cons op rest ih =>
    intro c h hops
    have hstep : CacheAgrees f (applyOp c op) := by
      cases op with
      | update p m b s =>
        exact CacheAgrees_update h p m b s
          (hops p m b s (List.mem_cons_self _ _))
      | remove p => exact CacheAgrees_remove h p
    exact ih (applyOp c op) hstep
      (fun p m b s hmem => hops p m b s (List.mem_cons_of_mem _ hmem))

/-! ## Incremental scan (scanner.rs:280-406) -/

/-- One file reached by the directory walk.  `content = none` models the
cases in which `process_file` bails out and returns no blobs (metadata
unreadable, size over `MAX_READABLE_FILE_SIZE`, read error, invalid
UTF-8); files whose mtime cannot be read are skipped before the cache
lookup and are simply absent from the walk list. -/
structure WalkFile where
  relPath : String
  mtime : Nat
  content : Option (List Char)
deriving DecidableEq, Repr

/-- `ScanResult` (scanner.rs:281-288). -/
structure ScanResult where
  to_upload : List FileBlob
  unchanged_blobs : List String
  deleted_paths : List String
deriving DecidableEq, Repr

/-- The blobs `process_file` contributes for a walked file. -/
def processWalkFile (sha : List Nat → String) (w : WalkFile) : List FileBlob :=
  match w.content with
  | some content => process_file sha w.relPath content w.mtime
  | none => []

/-- The cached entries grouped under a live file's relative path
(scanner.rs:307-317 `cached_by_base_path` plus the lookup at 357). -/
def cachedGroup (cache : BlobsCache) (relPath : String) :
    List (String × FileEntry) :=
  cache.path_to_blob.filter
    (fun pe => base_path_for_cached_path pe.1 == relPath)

/-- The per-file body of the incremental scan loop (scanner.rs:323-384):
`(to_upload, unchanged_blobs, seen_cache_paths)` contributions. -/
def scan_step (sha : List Nat → String) (cache : BlobsCache) (w : WalkFile) :
    List FileBlob × List String × List String :=
  let grp := cachedGroup cache w.relPath
  if grp ≠ [] ∧ ∀ pe ∈ grp, pe.2.mtime = w.mtime then
    ([], grp.map (fun pe => pe.2.blob_name), grp.map (fun pe => pe.1))
  else
    let blobs := processWalkFile sha w
    (blobs, [], blobs.map (fun b => b.path))

/-- `scan_workspace_incremental` (scanner.rs:297-406).  The walk is given
as the list of files reached (in order); each loop iteration's
contribution is independent of the accumulated state, so the loop is the
concatenation of the per-file contributions; `deleted_paths` keeps every
cached path never marked seen. -/
def scan_workspace_incremental (sha : List Nat → String)
    (walk : List WalkFile) (cache : BlobsCache) : ScanResult :=
  let steps := walk.map (scan_step sha cache)
  let seen := (steps.map (fun s => s.2.2)).flatten
  { to_upload := (steps.map (fun s => s.1)).flatten,
    unchanged_blobs := (steps.map (fun s => s.2.1)).flatten,
    deleted_paths :=
      (cache.path_to_blob.map (fun pe => pe.1)).filter
        (fun p => ¬ seen.contains p) }

/-- Mtime-matched group, as a predicate (the scan's unchanged test,
scanner.rs:357-368). -/
def matchedGroup (cache : BlobsCache) (w : WalkFile) : Prop :=
  cachedGroup cache w.relPath ≠ [] ∧
  ∀ pe ∈ cachedGroup cache w.relPath, pe.2.mtime = w.mtime

/-- A cached path is marked seen by the walk iff some walked file either
covers it in a fully mtime-matched group, or re-emits it as a chunk path
after re-processing. -/
def seenByWalk (sha : List Nat → String) (walk : List WalkFile)
    (cache : BlobsCache) (p : String) : Prop :=
  ∃ w ∈ walk,
    (matchedGroup cache w ∧ base_path_for_cached_path p = w.relPath ∧
      (∃ e, (p, e) ∈ cache.path_to_blob)) ∨
    (¬ matchedGroup cache w ∧ p ∈ (processWalkFile sha w).map (fun b => b.path))

theorem scan_step_seen_iff (sha : List Nat → String) (cache : BlobsCache)
    (w : WalkFile) (p : String) :
    p ∈ (scan_step sha cache w).2.2 ↔
      (matchedGroup cache w ∧ base_path_for_cached_path p = w.relPath ∧
        (∃ e, (p, e) ∈ cache.path_to_blob)) ∨
      (¬ matchedGroup cache w ∧
        p ∈ (processWalkFile sha w).map (fun b => b.path)) := by
  unfold scan_step
  by_cases h : cachedGroup cache w.relPath ≠ [] ∧
      ∀ pe ∈ cachedGroup cache w.relPath, pe.2.mtime = w.mtime
  · simp only [if_pos h]
    have hmg : matchedGroup cache w := h
    constructor
    · intro hp
      obtain ⟨pe, hpe, hpe2⟩ := List.mem_map.mp hp
      left
      refine ⟨hmg, ?_, ?_⟩
      · have := (List.mem_filter.mp hpe).2
        rw [← hpe2]
        exact eq_of_beq this
      · exact ⟨pe.2, by rw [← hpe2]; exact (List.mem_filter.mp hpe).1⟩
    · intro hor
      rcases hor with ⟨_, hbase, e, hmem⟩ | ⟨hnm, _⟩
      · refine List.mem_map.mpr ⟨(p, e), ?_, rfl⟩
        exact List.mem_filter.mpr ⟨hmem, by simpa using hbase⟩
      · exact absurd hmg hnm
  · simp only [if_neg h]
    have hnm : ¬ matchedGroup cache w := h
    constructor
    · intro hp
      exact Or.inr ⟨hnm, hp⟩
    · intro hor
      rcases hor with ⟨hmg, _⟩ | ⟨_, hp⟩
      · exact absurd hmg hnm
      · exact hp

/-- Membership in `deleted_paths`, characterized. -/
theorem scan_deleted_iff (sha : List Nat → String) (walk : List WalkFile)
    (cache : BlobsCache) (p : String) :
    p ∈ (scan_workspace_incremental sha walk cache).deleted_paths ↔
      (∃ e, (p, e) ∈ cache.path_to_blob) ∧ ¬ seenByWalk sha walk cache p := by
  unfold scan_workspace_incremental
  simp only [List.mem_filter, List.mem_map, decide_not]
  constructor
  · rintro ⟨⟨pe, hpe, rfl⟩, hseen⟩
    constructor
    · exact ⟨pe.2, by simpa using hpe⟩
    · intro hsbw
      obtain ⟨w, hw, hcase⟩ := hsbw
      have : pe.1 ∈ ((walk.map (scan_step sha cache)).map (fun s => s.2.2)).flatten := by
        rw [List.mem_flatten]
        refine ⟨(scan_step sha cache w).2.2, ?_, ?_⟩
        · simp only [List.map_map, List.mem_map]
          exact ⟨w, hw, rfl⟩
        · exact (scan_step_seen_iff sha cache w pe.1).mpr hcase
      simp only [Bool.not_eq_true', decide_eq_false_iff_not] at hseen
      exact hseen (by simpa using this)
  · rintro ⟨⟨e, hmem⟩, hns⟩
    refine ⟨⟨(p, e), hmem, rfl⟩, ?_⟩
    simp only [Bool.not_eq_true', decide_eq_false_iff_not]
    intro hcontains
    apply hns
    have hp : p ∈ ((walk.map (scan_step sha cache)).map (fun s => s.2.2)).flatten := by
      simpa using hcontains
    rw [List.mem_flatten] at hp
    obtain ⟨l, hl, hpl⟩ := hp
    simp only [List.map_map, List.mem_map] at hl
    obtain ⟨w, hw, rfl⟩ := hl
    exact ⟨w, hw, (scan_step_seen_iff sha cache w p).mp hpl⟩

theorem chunk_string_data : "#chunk".data = chunkMarker := by decide

theorem base_path_append_marker (x suffix : String) :
    base_path_for_cached_path (x ++ ("#chunk" ++ suffix)) =
      base_path_for_cached_path x := by
  unfold base_path_for_cached_path
  have hdata : (x ++ ("#chunk" ++ suffix)).data =
      x.data ++ (chunkMarker ++ suffix.data) := rfl
  rw [hdata, basePathList_append_marker]

theorem base_path_idem (p : String) :
    base_path_for_cached_path (base_path_for_cached_path p) =
      base_path_for_cached_path p := by
  unfold base_path_for_cached_path
  rw [show (String.mk (basePathList p.data)).data = basePathList p.data from rfl,
    basePathList_idem]

/-- Every blob emitted by `process_file` keeps the file's own relative
path: either verbatim (single chunk) or with a `"#chunk…"` suffix, whose
base path is the base path of the relative path. -/
theorem process_file_path_shape (sha : List Nat → String) (rel : String)
    (content : List Char) (m : Nat) :
    ∀ b ∈ process_file sha rel content m,
      b.path = rel ∨
      base_path_for_cached_path b.path = base_path_for_cached_path rel := by
  intro b hb
  unfold process_file at hb
  by_cases h : (split_content_into_chunks content).length = 1
  · simp only [if_pos h, List.mem_singleton] at hb
    subst hb
    exact Or.inl rfl
  · simp only [if_neg h, List.mem_map] at hb
    obtain ⟨ic, _, rfl⟩ := hb
    right
    have hassoc :
        rel ++ "#chunk" ++ toString (ic.1 + 1) ++ "of" ++
            toString (split_content_into_chunks content).length =
          rel ++ ("#chunk" ++ (toString (ic.1 + 1) ++ ("of" ++
            toString (split_content_into_chunks content).length))) := by
      apply String.ext
      simp [String.data_append, List.append_assoc]
    rw [hassoc]
    have := base_path_append_marker rel
      (toString (ic.1 + 1) ++ ("of" ++
        toString (split_content_into_chunks content).length))
    simpa using this

/-- Positive direction of the deletion rule that survives from the spec:
a cached path that is not itself live and whose base path is not the
base path of any live file is reported deleted. -/
theorem scan_deleted_of_not_live (sha : List Nat → String)
    (walk : List WalkFile) (cache : BlobsCache) (p : String)
    (hc : ∃ e, (p, e) ∈ cache.path_to_blob)
    (h1 : p ∉ walk.map (fun w => w.relPath))
    (h2 : base_path_for_cached_path p ∉
      walk.map (fun w => base_path_for_cached_path w.relPath)) :
    p ∈ (scan_workspace_incremental sha walk cache).deleted_paths := by
  rw [scan_deleted_iff]
  refine ⟨hc, ?_⟩
  rintro ⟨w, hw, hcase⟩
  rcases hcase with ⟨_, hbase, _⟩ | ⟨_, hp⟩
  · apply h2
    refine List.mem_map.mpr ⟨w, hw, ?_⟩
    rw [← hbase]
    exact base_path_idem p
  · obtain ⟨b, hb, hbp⟩ := List.mem_map.mp hp
    have hshape : b.path = w.relPath ∨
        base_path_for_cached_path b.path =
          base_path_for_cached_path w.relPath := by
      unfold processWalkFile at hb
      cases hcont : w.content with
      | none => rw [hcont] at hb; cases hb
      | some content =>
        rw [hcont] at hb
        exact process_file_path_shape sha w.relPath content w.mtime b hb
    rcases hshape with hsh | hsh
    · exact h1 (List.mem_map.mpr ⟨w, hw, by rw [← hsh, hbp]⟩)
    · exact h2 (List.mem_map.mpr ⟨w, hw, by rw [← hsh, hbp]⟩)

/-- Every `unchanged_blobs` entry is the blob name of some cache entry
present before the scan. -/
theorem scan_step_unchanged_sub (sha : List Nat → String) (cache : BlobsCache)
    (w : WalkFile) :
    ∀ b ∈ (scan_step sha cache w).2.1,
      ∃ pe ∈ cache.path_to_blob, pe.2.blob_name = b := by
  intro b hbl
  unfold scan_step at hbl
  by_cases h : cachedGroup cache w.relPath ≠ [] ∧
      ∀ pe ∈ cachedGroup cache w.relPath, pe.2.mtime = w.mtime
  · simp only [if_pos h] at hbl
    obtain ⟨pe, hpe, rfl⟩ := List.mem_map.mp hbl
    exact ⟨pe, (List.mem_filter.mp hpe).1, rfl⟩
  · simp only [if_neg h] at hbl
    simp at hbl

theorem scan_unchanged_sub (sha : List Nat → String) (walk : List WalkFile)
    (cache : BlobsCache) :
    ∀ b ∈ (scan_workspace_incremental sha walk cache).unchanged_blobs,
      ∃ pe ∈ cache.path_to_blob, pe.2.blob_name = b := by
  intro b hb
  unfold scan_workspace_incremental at hb
  simp only [List.mem_flatten, List.map_map, List.mem_map] at hb
  obtain ⟨l, ⟨w, _, rfl⟩, hbl⟩ := hb
  exact scan_step_unchanged_sub sha cache w b (by simpa using hbl)

/-! ## Upload batching (upload.rs:22-49) -/

/-- `MAX_UPLOAD_BATCH_BLOB_COUNT` (upload.rs:15). -/
def MAX_UPLOAD_BATCH_BLOB_COUNT : Nat := 128

/-- `MAX_UPLOAD_BATCH_BYTE_SIZE` (upload.rs:18). -/
def MAX_UPLOAD_BATCH_BYTE_SIZE : Nat := 1000000

/-- The loop of `create_upload_batches` (upload.rs:27-46): seal the
current batch when adding the next blob would reach either cap and the
batch is non-empty. -/
def batchLoop : List FileBlob → List FileBlob → Nat → List (List FileBlob)
  | [], current, _ => if current.isEmpty then [] else [current]
  | f :: rest, current, bytes =>
    let file_size := utf8Len f.content
    if (MAX_UPLOAD_BATCH_BLOB_COUNT ≤ current.length ∨
        MAX_UPLOAD_BATCH_BYTE_SIZE ≤ bytes + file_size) ∧ ¬ current = []
    then current :: batchLoop rest [f] file_size
    else batchLoop rest (current ++ [f]) (bytes + file_size)

/-- `create_upload_batches` (upload.rs:22-49). -/
def create_upload_batches (files : List FileBlob) : List (List FileBlob) :=
  batchLoop files [] 0

/-- Total content bytes of a batch. -/
def batchBytes (batch : List FileBlob) : Nat :=
  (batch.map (fun f => utf8Len f.content)).sum

theorem batchLoop_flatten :
    ∀ (files current : List FileBlob) (bytes : Nat),
      (batchLoop files current bytes).flatten = current ++ files := by
  intro files
  induction files with
  | nil =>
    intro current bytes
    by_cases h : current.isEmpty
    · have : current = [] := by simpa using h
      simp [batchLoop, h, this]
    · simp [batchLoop, h]
  | cons f rest ih =>
    intro current bytes
    unfold batchLoop
    by_cases h : (MAX_UPLOAD_BATCH_BLOB_COUNT ≤ current.length ∨
        MAX_UPLOAD_BATCH_BYTE_SIZE ≤ bytes + utf8Len f.content) ∧ ¬ current = []
    · simp only [if_pos h, List.flatten_cons, ih]
      simp
    · simp only [if_neg h, ih]
      simp

theorem create_upload_batches_flatten (files : List FileBlob) :
    (create_upload_batches files).flatten = files :=
  batchLoop_flatten files [] 0

theorem batchLoop_bounds :
    ∀ (files current : List FileBlob) (bytes : Nat),
      batchBytes current = bytes →
      current.length ≤ MAX_UPLOAD_BATCH_BLOB_COUNT →
      (2 ≤ current.length → batchBytes current < MAX_UPLOAD_BATCH_BYTE_SIZE) →
      ∀ batch ∈ batchLoop files current bytes,
        batch.length ≤ MAX_UPLOAD_BATCH_BLOB_COUNT ∧
        (2 ≤ batch.length → batchBytes batch < MAX_UPLOAD_BATCH_BYTE_SIZE) := by
  intro files
  induction files with
  | nil =>
    intro current bytes h1 h2 h3 batch hbatch
    by_cases h : current.isEmpty
    · simp [batchLoop, h] at hbatch
    · simp only [batchLoop, h, if_false, Bool.false_eq_true,
        List.mem_singleton] at hbatch
      subst hbatch
      exact ⟨h2, h3⟩
  | cons f rest ih =>
    intro current bytes h1 h2 h3 batch hbatch
    unfold batchLoop at hbatch
    by_cases h : (MAX_UPLOAD_BATCH_BLOB_COUNT ≤ current.length ∨
        MAX_UPLOAD_BATCH_BYTE_SIZE ≤ bytes + utf8Len f.content) ∧ ¬ current = []
    · simp only [if_pos h, List.mem_cons] at hbatch
      rcases hbatch with hbatch | hbatch
      · subst hbatch
        exact ⟨h2, h3⟩
      · refine ih [f] (utf8Len f.content) ?_ ?_ ?_ batch hbatch
        · simp [batchBytes]
        · simp [MAX_UPLOAD_BATCH_BLOB_COUNT]
        · intro hlen; simp at hlen
    · simp only [if_neg h] at hbatch
      have hnotand :
          current = [] ∨ (current.length < MAX_UPLOAD_BATCH_BLOB_COUNT ∧
            bytes + utf8Len f.content < MAX_UPLOAD_BATCH_BYTE_SIZE) := by
        by_cases hcur0 : current = []
        · exact Or.inl hcur0
        · right
          rcases not_and_or.mp h with hx | hx
          · push_neg at hx
            exact ⟨hx.1, hx.2⟩
          · exact absurd (not_not.mp hx) hcur0
      have hb2 : batchBytes (current ++ [f]) = bytes + utf8Len f.content := by
        simp [batchBytes, ← h1]
      refine ih (current ++ [f]) (bytes + utf8Len f.content) hb2 ?_ ?_ batch hbatch
      · rcases hnotand with hx | hx
        · simp [hx, MAX_UPLOAD_BATCH_BLOB_COUNT]
        · simp only [List.length_append, List.length_singleton]
          omega
      · intro hge
        rw [hb2]
        rcases hnotand with hx | hx
        · subst hx
          simp at hge
        · exact hx.2

theorem batchLoop_small :
    ∀ (files current : List FileBlob) (bytes : Nat),
      (∀ f ∈ files, utf8Len f.content < MAX_UPLOAD_BATCH_BYTE_SIZE) →
      batchBytes current = bytes →
      bytes < MAX_UPLOAD_BATCH_BYTE_SIZE →
      ∀ batch ∈ batchLoop files current bytes,
        batchBytes batch < MAX_UPLOAD_BATCH_BYTE_SIZE := by
  intro files
  induction files with
  | nil =>
    intro current bytes _ h1 h2 batch hbatch
    by_cases h : current.isEmpty
    · simp [batchLoop, h] at hbatch
    · simp only [batchLoop, h, if_false, Bool.false_eq_true,
        List.mem_singleton] at hbatch
      subst hbatch
      exact h1 ▸ h2
  | cons f rest ih =>
    intro current bytes hsmall h1 h2 batch hbatch
    have hfs : utf8Len f.content < MAX_UPLOAD_BATCH_BYTE_SIZE :=
      hsmall f (List.mem_cons_self _ _)
    have hsmall' : ∀ g ∈ rest, utf8Len g.content < MAX_UPLOAD_BATCH_BYTE_SIZE :=
      fun g hg => hsmall g (List.mem_cons_of_mem _ hg)
    unfold batchLoop at hbatch
    by_cases h : (MAX_UPLOAD_BATCH_BLOB_COUNT ≤ current.length ∨
        MAX_UPLOAD_BATCH_BYTE_SIZE ≤ bytes + utf8Len f.content) ∧ ¬ current = []
    · simp only [if_pos h, List.mem_cons] at hbatch
      rcases hbatch with hbatch | hbatch
      · subst hbatch
        exact h1 ▸ h2
      · exact ih [f] (utf8Len f.content) hsmall' (by simp [batchBytes]) hfs
          batch hbatch
    · simp only [if_neg h] at hbatch
      have hnew : bytes + utf8Len f.content < MAX_UPLOAD_BATCH_BYTE_SIZE := by
        by_cases hcur0 : current = []
        · have : bytes = 0 := by
            rw [hcur0] at h1; simpa [batchBytes] using h1.symm
          omega
        · rcases not_and_or.mp h with hx | hx
          · push_neg at hx
            exact hx.2
          · exact absurd (not_not.mp hx) hcur0
      exact ih (current ++ [f]) (bytes + utf8Len f.content) hsmall'
        (by simp [batchBytes, ← h1]) hnew batch hbatch

theorem batchLoop_mem_ne_nil :
    ∀ (files current : List FileBlob) (bytes : Nat),
      ∀ batch ∈ batchLoop files current bytes, batch ≠ [] := by
  intro files
  induction files with
  | nil =>
    intro current bytes batch hbatch
    by_cases h : current.isEmpty
    · simp [batchLoop, h] at hbatch
    · simp only [batchLoop, h, if_false, Bool.false_eq_true,
        List.mem_singleton] at hbatch
      subst hbatch
      simpa using h
  | cons f rest ih =>
    intro current bytes batch hbatch
    unfold batchLoop at hbatch
    by_cases h : (MAX_UPLOAD_BATCH_BLOB_COUNT ≤ current.length ∨
        MAX_UPLOAD_BATCH_BYTE_SIZE ≤ bytes + utf8Len f.content) ∧ ¬ current = []
    · simp only [if_pos h, List.mem_cons] at hbatch
      rcases hbatch with hbatch | hbatch
      · subst hbatch; exact h.2
      · exact ih [f] (utf8Len f.content) batch hbatch
    · simp only [if_neg h] at hbatch
      exact ih (current ++ [f]) (bytes + utf8Len f.content) batch hbatch

theorem create_upload_batches_mem_ne_nil (files : List FileBlob) :
    ∀ batch ∈ create_upload_batches files, batch ≠ [] :=
  batchLoop_mem_ne_nil files [] 0

/-! ## Batch upload with sequential fallback (upload.rs:51-137) -/

/-- `BatchUploadBlob` (api/types.rs:26-29). -/
structure BatchUploadBlob where
  path : String
  content : List Char
deriving DecidableEq, Repr

/-- The transport, abstracted: the response of the i-th `batch_upload`
call issued during a sync.  `none` models a transport-level error,
`some ns` a successful response carrying `blob_names = ns`
(api/types.rs:38-41). -/
def UploadOracle : Type := Nat → Option (List String)

/-- The blob names carried by a response (none on transport error). -/
def respNames (r : Option (List String)) : List String := r.getD []

/-- Whether a single-blob response acknowledges the blob: a successful
response with non-empty `blob_names` (upload.rs:121-129). -/
def ackBool (r : Option (List String)) : Bool :=
  match r with
  | some ns => !ns.isEmpty
  | none => false

/-- `BatchUploadResult` (upload.rs:52-61). -/
structure BatchUploadResult where
  batch_uploaded : Nat
  sequential_uploaded : Nat
  blob_names : List String
  uploaded_files : List FileBlob
deriving DecidableEq, Repr

def toUploadBlob (f : FileBlob) : BatchUploadBlob :=
  { path := f.path, content := f.content }

/-- Accumulated output of the sequential-fallback loop: names and files
recorded, count of successes, and the trace of requests issued. -/
structure SeqOut where
  names : List String
  files : List FileBlob
  count : Nat
  reqs : List (List BatchUploadBlob)
deriving DecidableEq, Repr

/-- The sequential fallback loop (upload.rs:115-134): one single-blob
request per remaining file, in order; call `i` is the i-th transport
call of the enclosing sync. -/
def upload_sequentially (oracle : UploadOracle) : Nat → List FileBlob → SeqOut
  | _, [] => { names := [], files := [], count := 0, reqs := [] }
  | i, f :: rest =>
    let tail := upload_sequentially oracle (i + 1) rest
    let req := [toUploadBlob f]
    match oracle i with
    | some ns =>
      if ns.isEmpty then
        { tail with reqs := req :: tail.reqs }
      else
        { names := ns ++ tail.names, files := f :: tail.files,
          count := tail.count + 1, reqs := req :: tail.reqs }
    | none => { tail with reqs := req :: tail.reqs }

/-- `upload_batch_with_fallback` (upload.rs:65-137), with the request
trace made explicit.  Returns `none` when the Rust code panics (the
slice `batch[..successfully_uploaded]` with `successfully_uploaded >
batch.len()`).  `start` is the index of the first transport call. -/
def upload_batch_with_fallback (oracle : UploadOracle) (start : Nat)
    (batch : List FileBlob) :
    Option (BatchUploadResult × List (List BatchUploadBlob)) :=
  if batch.isEmpty then
    some ({ batch_uploaded := 0, sequential_uploaded := 0,
            blob_names := [], uploaded_files := [] }, [])
  else
    let req := batch.map toUploadBlob
    let ns0 := respNames (oracle start)
    let successfully_uploaded := ns0.length
    if successfully_uploaded > batch.length then none
    else
      let seq := upload_sequentially oracle (start + 1)
        (batch.drop successfully_uploaded)
      some ({ batch_uploaded := successfully_uploaded,
              sequential_uploaded := seq.count,
              blob_names := ns0 ++ seq.names,
              uploaded_files := batch.take successfully_uploaded ++ seq.files },
            req :: seq.reqs)

/-- All blob names the oracle returned over calls `start ≤ i < start + n`. -/
def oracleNames (oracle : UploadOracle) (start n : Nat) : List String :=
  ((List.range n).map (fun j => respNames (oracle (start + j)))).flatten

theorem oracleNames_zero (oracle : UploadOracle) (start : Nat) :
    oracleNames oracle start 0 = [] := rfl

theorem oracleNames_succ_left (oracle : UploadOracle) (start n : Nat) :
    oracleNames oracle start (n + 1) =
      respNames (oracle start) ++ oracleNames oracle (start + 1) n := by
  unfold oracleNames
  rw [List.range_succ_eq_map]
  simp only [List.map_cons, List.map_map, List.flatten_cons, Nat.add_zero]
  congr 1
  congr 1
  apply List.map_congr_left
  intro j _
  simp only [Function.comp_apply, Nat.succ_eq_add_one]
  have harith : start + (j + 1) = start + 1 + j := by omega
  rw [harith]

theorem oracleNames_add (oracle : UploadOracle) (start m n : Nat) :
    oracleNames oracle start (m + n) =
      oracleNames oracle start m ++ oracleNames oracle (start + m) n := by
  induction m generalizing start with
  | zero => simp [oracleNames_zero]
  | succ k ih =>
    have h1 : k + 1 + n = (k + n) + 1 := by omega
    rw [h1, oracleNames_succ_left, oracleNames_succ_left, ih (start + 1),
      List.append_assoc]
    congr 3
    omega

theorem upload_sequentially_names (oracle : UploadOracle) :
    ∀ (i : Nat) (fs : List FileBlob),
      (upload_sequentially oracle i fs).names = oracleNames oracle i fs.length := by
  intro i fs
  induction fs generalizing i with
  | nil => rfl
  | cons f rest ih =>
    rw [List.length_cons, oracleNames_succ_left]
    unfold upload_sequentially
    cases horacle : oracle i with
    | some ns =>
      by_cases hns : ns.isEmpty
      · have : ns = [] := by simpa using hns
        simp [hns, ih (i + 1), respNames, horacle, this]
      · simp [hns, ih (i + 1), respNames, horacle]
    | none => simp [ih (i + 1), respNames, horacle]

theorem upload_sequentially_files (oracle : UploadOracle) :
    ∀ (i : Nat) (fs : List FileBlob),
      (upload_sequentially oracle i fs).files =
        (List.enumFrom i fs).filterMap
          (fun jf => if ackBool (oracle jf.1) then some jf.2 else none) := by
  intro i fs
  induction fs generalizing i with
  | nil => rfl
  | cons f rest ih =>
    rw [List.enumFrom_cons, List.filterMap_cons]
    unfold upload_sequentially
    cases horacle : oracle i with
    | some ns =>
      by_cases hns : ns.isEmpty
      · simp [hns, ih (i + 1), ackBool, horacle]
      · simp [hns, ih (i + 1), ackBool, horacle]
    | none => simp [ih (i + 1), ackBool, horacle]

theorem upload_sequentially_count (oracle : UploadOracle) :
    ∀ (i : Nat) (fs : List FileBlob),
      (upload_sequentially oracle i fs).count =
        (List.enumFrom i fs).countP (fun jf => ackBool (oracle jf.1)) := by
  intro i fs
  induction fs generalizing i with
  | nil => rfl
  | cons f rest ih =>
    rw [List.enumFrom_cons, List.countP_cons]
    unfold upload_sequentially
    cases horacle : oracle i with
    | some ns =>
      by_cases hns : ns.isEmpty
      · simp [hns, ih (i + 1), ackBool, horacle]
      · simp [hns, ih (i + 1), ackBool, horacle]
    | none => simp [ih (i + 1), ackBool, horacle]

theorem upload_sequentially_reqs (oracle : UploadOracle) :
    ∀ (i : Nat) (fs : List FileBlob),
      (upload_sequentially oracle i fs).reqs =
        fs.map (fun f => [toUploadBlob f]) := by
  intro i fs
  induction fs generalizing i with
  | nil => rfl
  | cons f rest ih =>
    rw [List.map_cons]
    unfold upload_sequentially
    cases horacle : oracle i with
    | some ns =>
      by_cases hns : ns.isEmpty
      · simp [hns, ih (i + 1)]
      · simp [hns, ih (i + 1)]
    | none => simp [ih (i + 1)]

theorem upload_sequentially_files_nil (oracle : UploadOracle) :
    ∀ (i : Nat) (fs : List FileBlob),
      (upload_sequentially oracle i fs).files = [] →
      (upload_sequentially oracle i fs).names = [] := by
  intro i fs
  induction fs generalizing i with
  | nil => intro _; rfl
  | cons f rest ih =>
    intro hfiles
    unfold upload_sequentially at hfiles ⊢
    cases horacle : oracle i with
    | some ns =>
      rw [horacle] at hfiles
      by_cases hns : ns.isEmpty
      · have hfiles' : (upload_sequentially oracle (i + 1) rest).files = [] := by
          simpa [hns] using hfiles
        simp [horacle, hns, ih (i + 1) hfiles']
      · exfalso
        simp [hns] at hfiles
    | none =>
      rw [horacle] at hfiles
      have hfiles' : (upload_sequentially oracle (i + 1) rest).files = [] := by
        simpa using hfiles
      simp [horacle, ih (i + 1) hfiles']

/-- Full behaviour of `upload_batch_with_fallback` when the batch call's
response is well-formed (at most as many names as blobs, a transport
error counting as zero names): the first `k` blobs are taken as uploaded
by the batch request, exactly one single-blob request is issued per
remaining blob in order, un-acknowledged blobs are recorded nowhere. -/
theorem upload_batch_with_fallback_spec (oracle : UploadOracle) (start : Nat)
    (batch : List FileBlob) (hne : batch ≠ [])
    (hk : (respNames (oracle start)).length ≤ batch.length) :
    ∃ r reqs, upload_batch_with_fallback oracle start batch = some (r, reqs) ∧
      r.batch_uploaded = (respNames (oracle start)).length ∧
      r.blob_names = oracleNames oracle start
        (1 + (batch.drop (respNames (oracle start)).length).length) ∧
      r.uploaded_files =
        batch.take (respNames (oracle start)).length ++
          (List.enumFrom (start + 1)
            (batch.drop (respNames (oracle start)).length)).filterMap
            (fun jf => if ackBool (oracle jf.1) then some jf.2 else none) ∧
      r.sequential_uploaded =
        (List.enumFrom (start + 1)
          (batch.drop (respNames (oracle start)).length)).countP
          (fun jf => ackBool (oracle jf.1)) ∧
      reqs = batch.map toUploadBlob ::
        (batch.drop (respNames (oracle start)).length).map
          (fun f => [toUploadBlob f]) ∧
      reqs.length = 1 + (batch.drop (respNames (oracle start)).length).length ∧
      (r.uploaded_files = [] → r.blob_names = []) := by
  have hbe : batch.isEmpty = false := by simpa using hne
  unfold upload_batch_with_fallback
  rw [hbe]
  simp only [Bool.false_eq_true, if_false]
  rw [if_neg (by omega)]
  refine ⟨_, _, rfl, rfl, ?_, ?_, ?_, ?_, ?_, ?_⟩
  · show respNames (oracle start) ++
        (upload_sequentially oracle (start + 1)
          (batch.drop (respNames (oracle start)).length)).names = _
    rw [upload_sequentially_names, oracleNames_add]
    congr 1
    rw [oracleNames_succ_left, oracleNames_zero, List.append_nil]
  · show batch.take (respNames (oracle start)).length ++
        (upload_sequentially oracle (start + 1)
          (batch.drop (respNames (oracle start)).length)).files = _
    rw [upload_sequentially_files]
  · show (upload_sequentially oracle (start + 1)
        (batch.drop (respNames (oracle start)).length)).count = _
    rw [upload_sequentially_count]
  · show batch.map toUploadBlob ::
        (upload_sequentially oracle (start + 1)
          (batch.drop (respNames (oracle start)).length)).reqs = _
    rw [upload_sequentially_reqs]
  · show (batch.map toUploadBlob ::
        (upload_sequentially oracle (start + 1)
          (batch.drop (respNames (oracle start)).length)).reqs).length = _
    rw [upload_sequentially_reqs]
    simp only [List.length_cons, List.length_map]
    omega
  · intro h
    have h1 := List.append_eq_nil.mp
      (show batch.take (respNames (oracle start)).length ++
        (upload_sequentially oracle (start + 1)
          (batch.drop (respNames (oracle start)).length)).files = [] from h)
    have hk0 : (respNames (oracle start)).length = 0 := by
      rcases List.take_eq_nil_iff.mp h1.1 with h2 | h2
      · exact h2
      · exact absurd h2 hne
    have hns0 : respNames (oracle start) = [] :=
      List.eq_nil_of_length_eq_zero hk0
    have hseqn := upload_sequentially_files_nil oracle (start + 1)
      (batch.drop (respNames (oracle start)).length) h1.2
    show respNames (oracle start) ++
        (upload_sequentially oracle (start + 1)
          (batch.drop (respNames (oracle start)).length)).names = []
    rw [List.append_eq_nil]
    exact ⟨hns0, hseqn⟩

/-- When the batch response carries more blob names than the request had
blobs, the slice `batch[..successfully_uploaded]` panics. -/
theorem upload_batch_with_fallback_panics (oracle : UploadOracle) (start : Nat)
    (batch : List FileBlob) (hne : batch ≠ [])
    (hk : batch.length < (respNames (oracle start)).length) :
    upload_batch_with_fallback oracle start batch = none := by
  have hbe : batch.isEmpty = false := by simpa using hne
  unfold upload_batch_with_fallback
  rw [hbe]
  simp only [Bool.false_eq_true, if_false]
  rw [if_pos (by omega)]

/-! ## Sync orchestrator (sync.rs:61-135, mod.rs:245-350) -/

/-- `Checkpoint` (cache.rs:41-46). -/
structure Checkpoint where
  checkpoint_id : Option String
  added_blobs : List String
  deleted_blobs : List String
deriving DecidableEq, Repr

/-- `SyncResult` (sync.rs:18-27). -/
structure SyncResult where
  checkpoint : Checkpoint
  uploaded_count : Nat
  unchanged_count : Nat
  deleted_count : Nat
deriving DecidableEq, Repr

/-- `WorkspaceManager::remove_deleted_from_cache` (mod.rs:330-350):
drop each deleted path's entry and its reverse-index blob name,
collecting the removed blob names. -/
def remove_deleted_from_cache (cache : BlobsCache)
    (deleted_paths : List String) : BlobsCache × List String :=
  deleted_paths.foldl
    (fun acc p =>
      match mapFind acc.1.path_to_blob p with
      | some entry =>
        ({ path_to_blob := mapErase acc.1.path_to_blob p,
           blob_to_path := mapErase acc.1.blob_to_path entry.blob_name },
         acc.2 ++ [entry.blob_name])
      | none => acc)
    (cache, [])

/-- `WorkspaceManager::mark_files_as_uploaded` (mod.rs:245-265): cache
each acknowledged file under its scan-time mtime, advancing the
content-sequence counter. -/
def mark_files_as_uploaded (cache : BlobsCache) (counter : Nat)
    (files : List FileBlob) : BlobsCache × Nat :=
  files.foldl
    (fun acc f => (acc.1.update f.path f.mtime f.blob_name acc.2, acc.2 + 1))
    (cache, counter)

/-- sync.rs:106-110: the loop body marks files, extends
`uploaded_blobs` and bumps `uploaded_count` only when
`result.uploaded_files` is non-empty. -/
def sync_gated_names (r : BatchUploadResult) : List String :=
  if r.uploaded_files.isEmpty then [] else r.blob_names

def sync_gated_count (r : BatchUploadResult) : Nat :=
  if r.uploaded_files.isEmpty then 0
  else r.batch_uploaded + r.sequential_uploaded

def sync_gated_cache (cache : BlobsCache) (counter : Nat)
    (r : BatchUploadResult) : BlobsCache × Nat :=
  if r.uploaded_files.isEmpty then (cache, counter)
  else mark_files_as_uploaded cache counter r.uploaded_files

/-- The per-batch upload loop of `sync_incremental` (sync.rs:102-111):
returns `(uploaded_blobs, uploaded_count, cache, counter, next call
index)`; `none` models a panic inside `upload_batch_with_fallback`. -/
def sync_batches (oracle : UploadOracle) :
    Nat → BlobsCache → Nat → List (List FileBlob) →
    Option (List String × Nat × BlobsCache × Nat × Nat)
  | idx, cache, counter, [] => some ([], 0, cache, counter, idx)
  | idx, cache, counter, batch :: rest =>
    match upload_batch_with_fallback oracle idx batch with
    | none => none
    | some (r, reqs) =>
      let next := sync_gated_cache cache counter r
      match sync_batches oracle (idx + reqs.length) next.1 next.2 rest with
      | none => none
      | some (ub, uc, cache2, counter2, nidx) =>
        some (sync_gated_names r ++ ub, sync_gated_count r + uc,
          cache2, counter2, nidx)

/-- `sync_incremental` (sync.rs:61-135): scan, prune deleted entries,
upload in batches, assemble the checkpoint as unchanged plus newly
uploaded blob names.  The final `Nat` is the number of transport calls
made; `none` models a panic in the upload path. -/
def sync_incremental (sha : List Nat → String) (oracle : UploadOracle)
    (walk : List WalkFile) (cache : BlobsCache) (counter : Nat) :
    Option (SyncResult × BlobsCache × Nat) :=
  let scan_result := scan_workspace_incremental sha walk cache
  let pruned := remove_deleted_from_cache cache scan_result.deleted_paths
  let batches := create_upload_batches scan_result.to_upload
  match sync_batches oracle 0 pruned.1 counter batches with
  | none => none
  | some (uploaded_blobs, uploaded_count, cache2, _, ncalls) =>
    some ({ checkpoint :=
              { checkpoint_id := none,
                added_blobs := scan_result.unchanged_blobs ++ uploaded_blobs,
                deleted_blobs := [] },
            uploaded_count := uploaded_count,
            unchanged_count := scan_result.unchanged_blobs.length,
            deleted_count := scan_result.deleted_paths.length },
          cache2, ncalls)

theorem upload_batch_some_wf (oracle : UploadOracle) (start : Nat)
    (batch : List FileBlob) (hne : batch ≠ [])
    {out : BatchUploadResult × List (List BatchUploadBlob)}
    (h : upload_batch_with_fallback oracle start batch = some out) :
    (respNames (oracle start)).length ≤ batch.length := by
  by_contra hgt
  rw [upload_batch_with_fallback_panics oracle start batch hne (by omega)] at h
  cases h

/-- Uploaded blob names over the batch loop are exactly the names of all
transport responses consumed. -/
theorem sync_batches_names (oracle : UploadOracle) :
    ∀ (batches : List (List FileBlob)) (idx : Nat) (cache : BlobsCache)
      (counter : Nat) (ub : List String) (uc : Nat) (cache2 : BlobsCache)
      (counter2 nidx : Nat),
      (∀ b ∈ batches, b ≠ []) →
      sync_batches oracle idx cache counter batches =
        some (ub, uc, cache2, counter2, nidx) →
      idx ≤ nidx ∧ ub = oracleNames oracle idx (nidx - idx) := by
  intro batches
  induction batches with
  | nil =>
    intro idx cache counter ub uc cache2 counter2 nidx _ h
    unfold sync_batches at h
    cases h
    refine ⟨Nat.le_refl _, ?_⟩
    rw [Nat.sub_self, oracleNames_zero]
  | cons batch rest ih =>
    intro idx cache counter ub uc cache2 counter2 nidx hne h
    have hbne : batch ≠ [] := hne batch (List.mem_cons_self _ _)
    have hne' : ∀ b ∈ rest, b ≠ [] :=
      fun b hb => hne b (List.mem_cons_of_mem _ hb)
    unfold sync_batches at h
    by_cases hnone : upload_batch_with_fallback oracle idx batch = none
    · rw [hnone] at h; cases h
    · have hk : (respNames (oracle idx)).length ≤ batch.length := by
        by_contra hgt
        exact hnone
          (upload_batch_with_fallback_panics oracle idx batch hbne (by omega))
      obtain ⟨r, reqs, heq, _, hnames, _, _, _, hreqlen, hgate⟩ :=
        upload_batch_with_fallback_spec oracle idx batch hbne hk
      simp only [heq] at h
      cases hrec : sync_batches oracle (idx + reqs.length)
          (sync_gated_cache cache counter r).1
          (sync_gated_cache cache counter r).2 rest with
      | none => rw [hrec] at h; cases h
      | some tail =>
        obtain ⟨ub', uc', c2, ct2, nidx'⟩ := tail
        rw [hrec] at h
        have hpair := Option.some.inj h
        have hub : sync_gated_names r ++ ub' = ub := congrArg (fun x => x.1) hpair
        have hnidx : nidx' = nidx := by
          have := congrArg (fun x => x.2.2.2.2) hpair
          simpa using this
        subst hnidx
        have hih := ih (idx + reqs.length) _ _ ub' uc' c2 ct2 nidx' hne' hrec
        have hgated : sync_gated_names r = r.blob_names := by
          unfold sync_gated_names
          by_cases hge : r.uploaded_files.isEmpty
          · rw [if_pos hge, hgate (by simpa using hge)]
          · rw [if_neg hge]
        constructor
        · omega
        · rw [← hub, hgated, hnames, hih.2, ← hreqlen]
          have harith : nidx' - idx = reqs.length + (nidx' - (idx + reqs.length)) := by
            omega
          rw [harith, oracleNames_add]

/-! ## API status taxonomy (api/types.rs:240-325) -/

/-- `ApiStatus` (api/types.rs:242-269). -/
inductive ApiStatus where
  | Ok
  | Cancelled
  | Unknown
  | Unavailable
  | Unimplemented
  | InvalidArgument
  | ResourceExhausted
  | Unauthenticated
  | PermissionDenied
  | DeadlineExceeded
  | AugmentTooLarge
  | AugmentClientTimeout
  | AugmentUpgradeRequired
deriving DecidableEq, Repr

/-- `ApiStatus::from_http_status` (api/types.rs:294-310); the arms are
tried in source order, so `504` is mapped before the `500..=599` range
arm. -/
def ApiStatus.from_http_status (http_status : Nat) : ApiStatus :=
  if 200 ≤ http_status ∧ http_status ≤ 299 then .Ok
  else if http_status = 400 then .InvalidArgument
  else if http_status = 401 then .Unauthenticated
  else if http_status = 403 then .PermissionDenied
  else if http_status = 404 then .Unimplemented
  else if http_status = 408 then .AugmentClientTimeout
  else if http_status = 413 then .AugmentTooLarge
  else if http_status = 426 then .AugmentUpgradeRequired
  else if http_status = 429 then .ResourceExhausted
  else if http_status = 499 then .Cancelled
  else if http_status = 504 then .DeadlineExceeded
  else if 500 ≤ http_status ∧ http_status ≤ 599 then .Unavailable
  else .Unknown

/-- `ApiStatus::is_fatal` (api/types.rs:312-320). -/
def ApiStatus.is_fatal : ApiStatus → Bool
  | .Unauthenticated => true
  | .PermissionDenied => true
  | .AugmentUpgradeRequired => true
  | _ => false

/-- `ApiStatus::is_retryable` (api/types.rs:322-325). -/
def ApiStatus.is_retryable : ApiStatus → Bool
  | .Cancelled => true
  | .Unavailable => true
  | _ => false

/-! ## Model resolution (startup/model_resolver.rs) -/

/-- `ModelInfoEntry` (model_resolver.rs:24-58). -/
structure ModelInfoEntry where
  description : Option String := none
  disabled : Bool := false
  display_name : Option String := none
  short_name : Option String := none
  is_default : Bool := false
  is_new : Bool := false
  is_legacy_model : Bool := false
  disabled_reason : Option String := none
deriving DecidableEq, Repr

/-- The model registry, keyed by model id; modelled as a list of
`(id, entry)` pairs in iteration order. -/
def ModelInfoRegistry : Type := List (String × ModelInfoEntry)

/-- `MatchedBy` (model_resolver.rs:91-95). -/
inductive MatchedBy where
  | shortName
  | id
deriving DecidableEq, Repr

/-- `ModelResolution` (model_resolver.rs:64-88). -/
inductive ModelResolution where
  | Resolved (id : String) (display_name : Option String)
      (matched_by : MatchedBy)
  | DisplayNameNotSupported (id : String) (display_name : Option String)
      (short_name : Option String)
  | NotFound
  | UseDefault
deriving DecidableEq, Repr

/-- Rust `str::trim`: drop whitespace from both ends (executable model
of `String.trim`). -/
def strTrim (s : String) : String :=
  ⟨((s.data.dropWhile Char.isWhitespace).reverse.dropWhile
      Char.isWhitespace).reverse⟩

/-- Rust `char::to_ascii_lowercase`. -/
def asciiLower (c : Char) : Char :=
  if 'A' ≤ c ∧ c ≤ 'Z' then Char.ofNat (c.toNat + 32) else c

/-- Rust `str::eq_ignore_ascii_case`. -/
def eqIgnoreAsciiCase (a b : String) : Bool :=
  a.data.map asciiLower == b.data.map asciiLower

/-- `resolve_model` (model_resolver.rs:122-166). -/
def resolve_model (input : String) (registry : ModelInfoRegistry) :
    ModelResolution :=
  let inp := strTrim input
  if eqIgnoreAsciiCase inp "default" then .UseDefault
  else
    match registry.find? (fun e => e.2.display_name == some inp) with
    | some (id, info) =>
      .DisplayNameNotSupported id info.display_name info.short_name
    | none =>
      match registry.find? (fun e => e.2.short_name == some inp) with
      | some (id, info) => .Resolved id info.display_name .shortName
      | none =>
        match mapFind registry inp with
        | some info => .Resolved inp info.display_name .id
        | none => .NotFound

/-- `resolve_model_with_fallback` (model_resolver.rs:171-221). -/
def resolve_model_with_fallback (user_input : Option String)
    (registry : ModelInfoRegistry) (default_model : Option String) :
    Option String :=
  match user_input with
  | some s =>
    if (strTrim s).isEmpty then none
    else
      match resolve_model s registry with
      | .Resolved id _ _ =>
        match mapFind registry id with
        | some info => if info.disabled then default_model else some id
        | none => some id
      | .DisplayNameNotSupported _ _ _ => default_model
      | .NotFound => default_model
      | .UseDefault => default_model
  | none => none

/-! ## Claims -/

/-- C7 (counterexample): the claim maps every HTTP status in 500–599 to
`Unavailable` and calls the result retryable; but the `504` match arm
precedes the `500..=599` arm, so 504 maps to `DeadlineExceeded`, which
`is_retryable` rejects. -/
theorem C7_counterexample :
    ApiStatus.from_http_status 504 = ApiStatus.DeadlineExceeded ∧
    ApiStatus.from_http_status 504 ≠ ApiStatus.Unavailable ∧
    (ApiStatus.from_http_status 504).is_retryable = false := by
  decide

/-- C7 (amended): `from_http_status` maps 401/403/426 to
`Unauthenticated`/`PermissionDenied`/`AugmentUpgradeRequired`, and these
three are exactly the fatal statuses; 499 maps to `Cancelled`; exactly
`Cancelled` and `Unavailable` are retryable; every status in 500–599
except 504 maps to `Unavailable` and is therefore retryable, while 504
maps to `DeadlineExceeded`, which is not retryable. -/
theorem C7_status_taxonomy :
    (ApiStatus.from_http_status 401 = ApiStatus.Unauthenticated ∧
     ApiStatus.from_http_status 403 = ApiStatus.PermissionDenied ∧
     ApiStatus.from_http_status 426 = ApiStatus.AugmentUpgradeRequired) ∧
    (∀ st : ApiStatus, st.is_fatal = true ↔
      (st = ApiStatus.Unauthenticated ∨ st = ApiStatus.PermissionDenied ∨
        st = ApiStatus.AugmentUpgradeRequired)) ∧
    ApiStatus.from_http_status 499 = ApiStatus.Cancelled ∧
    (∀ st : ApiStatus, st.is_retryable = true ↔
      (st = ApiStatus.Cancelled ∨ st = ApiStatus.Unavailable)) ∧
    (∀ s : Nat, 500 ≤ s → s ≤ 599 → s ≠ 504 →
      ApiStatus.from_http_status s = ApiStatus.Unavailable ∧
      (ApiStatus.from_http_status s).is_retryable = true) ∧
    ApiStatus.from_http_status 504 = ApiStatus.DeadlineExceeded ∧
    (ApiStatus.from_http_status 504).is_retryable = false := by
  refine ⟨by decide, ?_, by decide, ?_, ?_, by decide, by decide⟩
  · intro st
    cases st <;> simp [ApiStatus.is_fatal]
  · intro st
    cases st <;> simp [ApiStatus.is_retryable]
  · intro s h1 h2 h3
    have hmap : ApiStatus.from_http_status s = ApiStatus.Unavailable := by
      unfold ApiStatus.from_http_status
      have h400 : s ≠ 400 := by omega
      have h401 : s ≠ 401 := by omega
      have h403 : s ≠ 403 := by omega
      have h404 : s ≠ 404 := by omega
      have h408 : s ≠ 408 := by omega
      have h413 : s ≠ 413 := by omega
      have h426 : s ≠ 426 := by omega
      have h429 : s ≠ 429 := by omega
      have h499 : s ≠ 499 := by omega
      rw [if_neg (fun hc => absurd hc.2 (by omega)), if_neg h400,
        if_neg h401, if_neg h403, if_neg h404, if_neg h408, if_neg h413,
        if_neg h426, if_neg h429, if_neg h499, if_neg h3,
        if_pos ⟨h1, h2⟩]
    exact ⟨hmap, by rw [hmap]; rfl⟩

/-- C7 witness: HTTP 503 is mapped to `Unavailable` and is retryable. -/
theorem C7_status_taxonomy_witness :
    ApiStatus.from_http_status 503 = ApiStatus.Unavailable ∧
    (ApiStatus.from_http_status 503).is_retryable = true :=
  C7_status_taxonomy.2.2.2.2.1 503 (by decide) (by decide) (by decide)

theorem batchBytes_single (p bn : String) (c : List Char) (m : Nat) :
    batchBytes [{ path := p, content := c, blob_name := bn, mtime := m }] =
      utf8Len c := by
  simp [batchBytes]

theorem batchLoop_singleton (f : FileBlob) : batchLoop [f] [] 0 = [[f]] := by
  unfold batchLoop
  rw [if_neg (fun hc => hc.2 rfl)]
  unfold batchLoop
  rw [if_neg (by simp), List.nil_append]

theorem splitInclusiveNl_no_newline (l : List Char) (hne : l ≠ [])
    (h : '\n' ∉ l) : splitInclusiveNl l = [l] := by
  induction l with
  | nil => exact absurd rfl hne
  | cons c rest ih =>
    have hc : c ≠ '\n' := fun hcc => h (by rw [hcc]; exact List.mem_cons_self _ _)
    have hr : '\n' ∉ rest := fun hm => h (List.mem_cons_of_mem _ hm)
    rw [splitInclusiveNl_cons_ne hc]
    cases hrest : rest with
    | nil => rfl
    | cons d rest' =>
      rw [← hrest, ih (by rw [hrest]; exact List.cons_ne_nil _ _) hr]

theorem splitLoop_singleton (seg : List Char) (hne : seg ≠ []) :
    splitLoop [seg] [] 0 0 = [seg] := by
  unfold splitLoop
  rw [if_neg (fun hc => hc.1 rfl)]
  unfold splitLoop
  rw [if_neg (by simpa using hne), List.nil_append]

theorem split_content_single (content : List Char) (hne : content ≠ [])
    (hnl : '\n' ∉ content) : split_content_into_chunks content = [content] := by
  unfold split_content_into_chunks
  rw [if_neg (by simpa using hne),
    splitInclusiveNl_no_newline content hne hnl, splitLoop_singleton content hne]
  rfl

/-- C5 (counterexample): the claim says every produced batch holds
strictly fewer than 1,000,000 content bytes for every input; a single
blob of exactly 1,000,000 bytes is placed alone in a batch that reaches
the cap. -/
theorem C5_counterexample :
    create_upload_batches
      [{ path := "big.txt", content := List.replicate 1000000 'a',
         blob_name := "h", mtime := 0 }] =
      [[{ path := "big.txt", content := List.replicate 1000000 'a',
          blob_name := "h", mtime := 0 }]] ∧
    ¬ batchBytes
        [{ path := "big.txt", content := List.replicate 1000000 'a',
           blob_name := "h", mtime := 0 }] < MAX_UPLOAD_BATCH_BYTE_SIZE := by
  constructor
  · exact batchLoop_singleton _
  · rw [batchBytes_single, utf8Len_replicate_a]
    decide

/-- C5 (amended): every batch holds at most 128 blobs and the batches
concatenate to the input; every batch holding at least two blobs stays
under 1,000,000 content bytes, and if every input blob is individually
under the cap then every batch is; a single blob of 1,000,000 bytes or
more sits alone in a batch at or over the cap. -/
theorem C5_batching (files : List FileBlob) :
    (∀ batch ∈ create_upload_batches files,
      batch.length ≤ MAX_UPLOAD_BATCH_BLOB_COUNT) ∧
    (∀ batch ∈ create_upload_batches files,
      2 ≤ batch.length → batchBytes batch < MAX_UPLOAD_BATCH_BYTE_SIZE) ∧
    ((∀ f ∈ files, utf8Len f.content < MAX_UPLOAD_BATCH_BYTE_SIZE) →
      ∀ batch ∈ create_upload_batches files,
        batchBytes batch < MAX_UPLOAD_BATCH_BYTE_SIZE) ∧
    (create_upload_batches files).flatten = files := by
  refine ⟨?_, ?_, ?_, create_upload_batches_flatten files⟩
  · intro b hb
    exact (batchLoop_bounds files [] 0 rfl (Nat.zero_le _)
      (by intro h; simp at h) b hb).1
  · intro b hb hlen
    exact (batchLoop_bounds files [] 0 rfl (Nat.zero_le _)
      (by intro h; simp at h) b hb).2 hlen
  · intro hsmall b hb
    exact batchLoop_small files [] 0 hsmall rfl
      (by simp [MAX_UPLOAD_BATCH_BYTE_SIZE]) b hb

/-- C5 witness: a concrete one-blob input yields one batch under both
caps. -/
theorem C5_batching_witness :
    batchBytes [{ path := "a.txt", content := ['h', 'i'],
                  blob_name := "b1", mtime := 0 }] < MAX_UPLOAD_BATCH_BYTE_SIZE :=
  (C5_batching
      [{ path := "a.txt", content := ['h', 'i'], blob_name := "b1",
         mtime := 0 }]).2.2.1
    (by decide)
    [{ path := "a.txt", content := ['h', 'i'], blob_name := "b1", mtime := 0 }]
    (by decide)

/-- C2 (counterexample): the claim says every chunk holds at most
128 KiB; a single line of 131073 bytes is emitted as one oversized
chunk, because a chunk is only sealed when the current chunk is
non-empty. -/
theorem C2_counterexample :
    split_content_into_chunks (List.replicate 131073 'a') =
      [List.replicate 131073 'a'] ∧
    ¬ utf8Len (List.replicate 131073 'a') ≤ MAX_BLOB_SIZE := by
  have hne : List.replicate 131073 'a' ≠ [] := fun h => by
    have hl := congrArg List.length h
    rw [List.length_replicate] at hl
    exact absurd hl (by decide)
  have hnl : '\n' ∉ List.replicate 131073 'a' := fun h =>
    absurd (List.eq_of_mem_replicate h) (by decide)
  refine ⟨split_content_single _ hne hnl, ?_⟩
  rw [utf8Len_replicate_a]
  decide

/-- C2 (amended): the chunks concatenate to the content; every chunk
has at most 800 lines; every chunk holding at least two lines fits in
128 KiB, and if every line fits then every chunk fits; one chunk means
the unsuffixed relative path, several chunks mean the
`#chunk<i>of<N>` paths with each blob id computed over its own suffixed
path and own bytes. -/
theorem C2_chunking (sha : List Nat → String) (relative_path : String)
    (content : List Char) (mtime : Nat) :
    (split_content_into_chunks content).flatten = content ∧
    (∀ ch ∈ split_content_into_chunks content,
      (splitInclusiveNl ch).length ≤ MAX_LINES_PER_BLOB ∧
      (2 ≤ (splitInclusiveNl ch).length → utf8Len ch ≤ MAX_BLOB_SIZE)) ∧
    ((∀ s ∈ splitInclusiveNl content, utf8Len s ≤ MAX_BLOB_SIZE) →
      ∀ ch ∈ split_content_into_chunks content,
        utf8Len ch ≤ MAX_BLOB_SIZE) ∧
    ((split_content_into_chunks content).length = 1 →
      process_file sha relative_path content mtime =
        [{ path := relative_path,
           content := (split_content_into_chunks content).headI,
           blob_name := compute_blob_name sha relative_path
             (split_content_into_chunks content).headI,
           mtime := mtime }]) ∧
    ((split_content_into_chunks content).length ≠ 1 →
      process_file sha relative_path content mtime =
        (split_content_into_chunks content).enum.map (fun ic =>
          { path := relative_path ++ "#chunk" ++ toString (ic.1 + 1) ++
              "of" ++ toString (split_content_into_chunks content).length,
            content := ic.2,
            blob_name := compute_blob_name sha
              (relative_path ++ "#chunk" ++ toString (ic.1 + 1) ++ "of" ++
                toString (split_content_into_chunks content).length) ic.2,
            mtime := mtime })) := by
  refine ⟨split_content_into_chunks_flatten content,
    split_content_into_chunks_bounds content,
    split_content_into_chunks_small content, ?_, ?_⟩
  · intro h1
    simp only [process_file]
    rw [if_pos h1]
  · intro h1
    simp only [process_file]
    rw [if_neg h1]

/-- C2 witness: a concrete two-character file yields one chunk and one
unsuffixed blob. -/
theorem C2_chunking_witness :
    process_file (fun _ => "H") "a.txt" ['h', 'i'] 0 =
      [{ path := "a.txt", content := ['h', 'i'],
         blob_name := "H", mtime := 0 }] := by
  have h := (C2_chunking (fun _ => "H") "a.txt" ['h', 'i'] 0).2.2.2.1
    (by decide)
  rw [h]
  decide

/-- C10: a readable empty file is not skipped: chunking yields exactly
one empty chunk, `process_file` emits exactly one blob with the
unsuffixed relative path, empty content and blob id computed over the
path bytes alone, and an incremental scan of that file against an empty
cache schedules exactly that blob for upload. -/
theorem C10_empty_file (sha : List Nat → String) (p : String) (m : Nat) :
    split_content_into_chunks [] = [[]] ∧
    process_file sha p [] m =
      [{ path := p, content := [],
         blob_name := sha (utf8Bytes p.data), mtime := m }] ∧
    scan_workspace_incremental sha
        [{ relPath := p, mtime := m, content := some [] }]
        BlobsCache.empty =
      { to_upload :=
          [{ path := p, content := [],
             blob_name := sha (utf8Bytes p.data), mtime := m }],
        unchanged_blobs := [], deleted_paths := [] } := by
  have hpf : process_file sha p [] m =
      [{ path := p, content := [],
         blob_name := sha (utf8Bytes p.data), mtime := m }] := by
    simp [process_file, split_content_into_chunks, compute_blob_name,
      utf8Bytes]
  refine ⟨rfl, hpf, ?_⟩
  simp [scan_workspace_incremental, scan_step, processWalkFile,
    cachedGroup, BlobsCache.empty, hpf]

/-- C9: under the precondition that every server response carries at
most as many blob names as the request has blobs, the batch upload
never panics; for a response whose blob_names list is longer than the
request's blob list, the slice `batch[..successfully_uploaded]` is out
of bounds and the function panics instead of returning a result. -/
theorem C9_batch_slice_panic :
    (∀ (oracle : UploadOracle) (start : Nat) (batch : List FileBlob),
      (∀ i ns, oracle i = some ns → ns.length ≤ batch.length) →
      (upload_batch_with_fallback oracle start batch).isSome = true) ∧
    upload_batch_with_fallback (fun _ => some ["n1", "n2"]) 0
      [{ path := "p", content := [], blob_name := "b", mtime := 0 }] =
      none := by
  constructor
  · intro oracle start batch hkk
    by_cases hb : batch = []
    · subst hb; rfl
    · have hk : (respNames (oracle start)).length ≤ batch.length := by
        cases ho : oracle start with
        | none => simp [respNames, ho]
        | some ns =>
          have := hkk start ns ho
          simpa [respNames, ho] using this
      obtain ⟨r, reqs, heq, -⟩ :=
        upload_batch_with_fallback_spec oracle start batch hb hk
      rw [heq]
      rfl
  · exact upload_batch_with_fallback_panics _ 0 _
      (List.cons_ne_nil _ _) (by decide)

/-- C9 witness: a well-behaved transport (every response empty) never
makes the upload panic on a one-blob batch. -/
theorem C9_batch_slice_panic_witness :
    (upload_batch_with_fallback (fun _ => some []) 0
      [{ path := "p", content := [], blob_name := "b",
         mtime := 0 }]).isSome = true :=
  C9_batch_slice_panic.1 (fun _ => some []) 0
    [{ path := "p", content := [], blob_name := "b", mtime := 0 }]
    (fun i ns h => by
      rw [← Option.some.inj h]
      decide)

/-- C4: when the batch request succeeds with `k ≤ n` blob names, exactly
the first `k` blobs count as uploaded by the batch request and exactly
one single-blob request is issued for each of the remaining `n - k`
blobs, a remaining blob being recorded iff its own response
acknowledges it, and `blob_names` is the batch response's names followed
by exactly the names of the single-blob responses (an unacknowledged
call contributing none); when the batch request fails at the transport
level, all `n` blobs go to the sequential fallback. -/
theorem C4_batch_fallback (oracle : UploadOracle) (start : Nat)
    (batch : List FileBlob) (hne : batch ≠ []) :
    (∀ ns, oracle start = some ns → ns.length ≤ batch.length →
      ∃ r reqs,
        upload_batch_with_fallback oracle start batch = some (r, reqs) ∧
        r.batch_uploaded = ns.length ∧
        r.uploaded_files = batch.take ns.length ++
          (List.enumFrom (start + 1) (batch.drop ns.length)).filterMap
            (fun jf => if ackBool (oracle jf.1) then some jf.2 else none) ∧
        r.blob_names = ns ++
          oracleNames oracle (start + 1) (batch.drop ns.length).length ∧
        reqs = batch.map toUploadBlob ::
          (batch.drop ns.length).map (fun f => [toUploadBlob f]) ∧
        r.sequential_uploaded =
          (List.enumFrom (start + 1) (batch.drop ns.length)).countP
            (fun jf => ackBool (oracle jf.1))) ∧
    (oracle start = none →
      ∃ r reqs,
        upload_batch_with_fallback oracle start batch = some (r, reqs) ∧
        r.batch_uploaded = 0 ∧
        r.uploaded_files = (List.enumFrom (start + 1) batch).filterMap
          (fun jf => if ackBool (oracle jf.1) then some jf.2 else none) ∧
        r.blob_names = oracleNames oracle (start + 1) batch.length ∧
        reqs = batch.map toUploadBlob ::
          batch.map (fun f => [toUploadBlob f])) ∧
    (∀ i, ackBool (oracle i) = false → respNames (oracle i) = []) := by
  refine ⟨?_, ?_, ?_⟩
  · intro ns ho hk
    have hr : respNames (oracle start) = ns := by simp [respNames, ho]
    obtain ⟨r, reqs, heq, h1, h2, h3, h4, h5, h6, h7⟩ :=
      upload_batch_with_fallback_spec oracle start batch hne
        (by rw [hr]; exact hk)
    refine ⟨r, reqs, heq, ?_, ?_, ?_, ?_, ?_⟩
    · rw [h1, hr]
    · rw [h3, hr]
    · rw [h2, hr, Nat.add_comm 1, oracleNames_succ_left, hr]
    · rw [h5, hr]
    · rw [h4, hr]
  · intro ho
    have hr : respNames (oracle start) = [] := by simp [respNames, ho]
    obtain ⟨r, reqs, heq, h1, h2, h3, h4, h5, h6, h7⟩ :=
      upload_batch_with_fallback_spec oracle start batch hne (by rw [hr]; simp)
    refine ⟨r, reqs, heq, ?_, ?_, ?_, ?_⟩
    · rw [h1, hr]; rfl
    · rw [h3, hr]; simp
    · rw [h2, hr]
      simp only [List.length_nil, List.drop_zero]
      rw [Nat.add_comm 1, oracleNames_succ_left, hr, List.nil_append]
    · rw [h5, hr]; simp
  · intro i h
    cases ho : oracle i with
    | none => rfl
    | some ns =>
      rw [ho] at h
      cases ns with
      | nil => rfl
      | cons a l => simp [ackBool] at h

/-- C4 witness: a two-blob batch whose batch response acknowledges one
blob reports exactly one batch-uploaded blob. -/
theorem C4_batch_fallback_witness :
    ∃ r reqs,
      upload_batch_with_fallback
          (fun i => if i = 0 then some ["n1"] else none) 0
          [{ path := "p1", content := [], blob_name := "b1", mtime := 0 },
           { path := "p2", content := [], blob_name := "b2", mtime := 0 }] =
        some (r, reqs) ∧ r.batch_uploaded = 1 := by
  obtain ⟨r, reqs, heq, h1, -⟩ :=
    (C4_batch_fallback (fun i => if i = 0 then some ["n1"] else none) 0
      [{ path := "p1", content := [], blob_name := "b1", mtime := 0 },
       { path := "p2", content := [], blob_name := "b2", mtime := 0 }]
      (List.cons_ne_nil _ _)).1
      ["n1"] rfl (by decide)
  exact ⟨r, reqs, heq, by rw [h1]; rfl⟩

/-- C6 (counterexample): the claim quantifies over arbitrary arguments;
two updates that give two distinct paths the same blob name leave the
reverse map pointing only at the second path, breaking the stated
iff. -/
theorem C6_counterexample :
    ¬ CacheConsistent (applyOps
      [CacheOp.update "a" 0 "h" 0, CacheOp.update "b" 0 "h" 0]
      BlobsCache.empty) := by
  intro h
  have h2 := (h "h" "a").mpr
    ⟨{ mtime := 0, blob_name := "h", content_seq := 0 }, by decide, rfl⟩
  exact absurd h2 (by decide)

/-- C6 (amended): the forward/reverse consistency holds for every
sequence of updates and removes from the empty cache provided the
updates assign each blob name to a single path (as the content-hash
blob names of a real run do, the path being part of the hashed
bytes). -/
theorem C6_cache_consistency (f : String → String) (ops : List CacheOp)
    (hf : ∀ p m b s, CacheOp.update p m b s ∈ ops → f b = p) :
    CacheConsistent (applyOps ops BlobsCache.empty) :=
  (CacheAgrees_applyOps ops BlobsCache.empty (CacheAgrees_empty f) hf).2.2

/-- C6 witness: an update followed by a remove of the same path leaves a
consistent cache. -/
theorem C6_cache_consistency_witness :
    CacheConsistent (applyOps
      [CacheOp.update "a" 0 "ha" 1, CacheOp.remove "a"]
      BlobsCache.empty) :=
  C6_cache_consistency (fun _ => "a") _
    (fun p m b s hmem => by
      simp only [List.mem_cons] at hmem
      rcases hmem with h | h | h
      · injection h with hp hm hb hs
        rw [hp]
      · exact CacheOp.noConfusion h
      · exact absurd h (List.not_mem_nil _))

/-- C3 (counterexample): the claim says a cached chunk path whose base
path is live is never deleted; here the live base file `f` has a changed
mtime, is re-chunked into a single unsuffixed blob, and the stale chunk
path `f#chunk1of2` lands in `deleted_paths` although its base path is
live. -/
theorem C3_counterexample :
    "f#chunk1of2" ∈ (scan_workspace_incremental (fun _ => "H")
      [{ relPath := "f", mtime := 6, content := some ['x'] }]
      { path_to_blob :=
          [("f#chunk1of2",
            { mtime := 5, blob_name := "b1", content_seq := 0 })],
        blob_to_path := [("b1", "f#chunk1of2")] }).deleted_paths ∧
    base_path_for_cached_path "f#chunk1of2" = "f" ∧
    "f" ∈ [({ relPath := "f", mtime := 6,
              content := some ['x'] } : WalkFile)].map
      (fun w => w.relPath) := by
  refine ⟨by decide, by decide, by decide⟩

/-- C3 (amended): `deleted_paths` holds exactly the cached paths not
marked seen by the walk — seen meaning covered by a fully mtime-matched
group or re-emitted as a path of a re-processed file; in particular a
cached path that is not itself re-emitted and whose base path is the
base path of no walked file is deleted. -/
theorem C3_deleted_paths (sha : List Nat → String) (walk : List WalkFile)
    (cache : BlobsCache) (p : String) :
    (p ∈ (scan_workspace_incremental sha walk cache).deleted_paths ↔
      (∃ e, (p, e) ∈ cache.path_to_blob) ∧ ¬ seenByWalk sha walk cache p) ∧
    ((∃ e, (p, e) ∈ cache.path_to_blob) →
      p ∉ walk.map (fun w => w.relPath) →
      base_path_for_cached_path p ∉
        walk.map (fun w => base_path_for_cached_path w.relPath) →
      p ∈ (scan_workspace_incremental sha walk cache).deleted_paths) :=
  ⟨scan_deleted_iff sha walk cache p,
   fun hc h1 h2 => scan_deleted_of_not_live sha walk cache p hc h1 h2⟩

/-- C3 witness: a cached path with no corresponding file in an empty
walk is reported deleted. -/
theorem C3_deleted_paths_witness :
    "old" ∈ (scan_workspace_incremental (fun _ => "H") []
      { path_to_blob :=
          [("old", { mtime := 0, blob_name := "b", content_seq := 0 })],
        blob_to_path := [("b", "old")] }).deleted_paths :=
  (C3_deleted_paths (fun _ => "H") [] _ "old").2
    ⟨{ mtime := 0, blob_name := "b", content_seq := 0 }, by decide⟩
    (by decide) (by decide)

/-- C8: model resolution tries, in order: case-insensitive `default`;
an exact displayName match, reported as unsupported with that model's
shortName as the suggestion (regardless of any later shortName or id
match); a shortName match; an exact model-id match; otherwise NotFound.
With a fallback, an empty trimmed input yields no model, a
NotFound / displayName / default outcome yields the default model, and
a resolved model that is marked disabled also yields the default
model. -/
theorem C8_model_resolution (registry : ModelInfoRegistry) (s : String) :
    (eqIgnoreAsciiCase (strTrim s) "default" = true →
      resolve_model s registry = .UseDefault) ∧
    (∀ id info, eqIgnoreAsciiCase (strTrim s) "default" = false →
      registry.find? (fun e => e.2.display_name == some (strTrim s)) =
        some (id, info) →
      resolve_model s registry =
        .DisplayNameNotSupported id info.display_name info.short_name) ∧
    (∀ id info, eqIgnoreAsciiCase (strTrim s) "default" = false →
      registry.find? (fun e => e.2.display_name == some (strTrim s)) = none →
      registry.find? (fun e => e.2.short_name == some (strTrim s)) =
        some (id, info) →
      resolve_model s registry = .Resolved id info.display_name .shortName) ∧
    (∀ info, eqIgnoreAsciiCase (strTrim s) "default" = false →
      registry.find? (fun e => e.2.display_name == some (strTrim s)) = none →
      registry.find? (fun e => e.2.short_name == some (strTrim s)) = none →
      mapFind registry (strTrim s) = some info →
      resolve_model s registry = .Resolved (strTrim s) info.display_name .id) ∧
    (eqIgnoreAsciiCase (strTrim s) "default" = false →
      registry.find? (fun e => e.2.display_name == some (strTrim s)) = none →
      registry.find? (fun e => e.2.short_name == some (strTrim s)) = none →
      mapFind registry (strTrim s) = none →
      resolve_model s registry = .NotFound) ∧
    ((strTrim s).isEmpty = true →
      ∀ dm, resolve_model_with_fallback (some s) registry dm = none) ∧
    (∀ dm, (strTrim s).isEmpty = false →
      (resolve_model s registry = .NotFound ∨
        (∃ id dn sn,
          resolve_model s registry = .DisplayNameNotSupported id dn sn) ∨
        resolve_model s registry = .UseDefault) →
      resolve_model_with_fallback (some s) registry dm = dm) ∧
    (∀ dm id dn mb info, (strTrim s).isEmpty = false →
      resolve_model s registry = .Resolved id dn mb →
      mapFind registry id = some info → info.disabled = true →
      resolve_model_with_fallback (some s) registry dm = dm) := by
  refine ⟨?_, ?_, ?_, ?_, ?_, ?_, ?_, ?_⟩
  · intro h
    simp [resolve_model, h]
  · intro id info h h1
    simp [resolve_model, h, h1]
  · intro id info h h1 h2
    simp [resolve_model, h, h1, h2]
  · intro info h h1 h2 h3
    simp [resolve_model, h, h1, h2, h3]
  · intro h h1 h2 h3
    simp [resolve_model, h, h1, h2, h3]
  · intro h dm
    simp [resolve_model_with_fallback, h]
  · intro dm h hcase
    rcases hcase with hres | ⟨id, dn, sn, hres⟩ | hres <;>
      simp [resolve_model_with_fallback, h, hres]
  · intro dm id dn mb info h hres hfind hdis
    simp [resolve_model_with_fallback, h, hres, hfind, hdis]

/-- C8 witness: with a registry in which `X` is one model's displayName
and another model's shortName, input `X` reports the displayName error
and suggests the first model's shortName. -/
theorem C8_model_resolution_witness :
    resolve_model "X"
      [("m1", { display_name := some "X", short_name := some "s1" }),
       ("m2", { short_name := some "X" })] =
      ModelResolution.DisplayNameNotSupported "m1" (some "X") (some "s1") :=
  (C8_model_resolution
      [("m1", { display_name := some "X", short_name := some "s1" }),
       ("m2", { short_name := some "X" })] "X").2.1
    "m1" { display_name := some "X", short_name := some "s1" }
    (by decide) (by decide)

/-- C1: every blob id in the returned checkpoint's `added_blobs` is the
unchanged-blob list of the incremental scan followed by exactly the blob
names returned by the server over this sync's transport calls; hence
each one is either a blob name already stored in the cache before the
sync or a server-acknowledged name of this sync. -/
theorem C1_checkpoint_acked (sha : List Nat → String) (oracle : UploadOracle)
    (walk : List WalkFile) (cache : BlobsCache) (counter : Nat)
    (res : SyncResult) (cache2 : BlobsCache) (ncalls : Nat)
    (hrun : sync_incremental sha oracle walk cache counter =
      some (res, cache2, ncalls)) :
    res.checkpoint.added_blobs =
      (scan_workspace_incremental sha walk cache).unchanged_blobs ++
        oracleNames oracle 0 ncalls ∧
    ∀ b ∈ res.checkpoint.added_blobs,
      (∃ pe ∈ cache.path_to_blob, pe.2.blob_name = b) ∨
      b ∈ oracleNames oracle 0 ncalls := by
  simp only [sync_incremental] at hrun
  cases hsb : sync_batches oracle 0
      (remove_deleted_from_cache cache
        (scan_workspace_incremental sha walk cache).deleted_paths).1 counter
      (create_upload_batches
        (scan_workspace_incremental sha walk cache).to_upload) with
  | none =>
    rw [hsb] at hrun
    cases hrun
  | some out =>
    obtain ⟨ub, uc, c2, ct2, nidx⟩ := out
    simp only [hsb] at hrun
    have hpair := Option.some.inj hrun
    have hadded : res.checkpoint.added_blobs =
        (scan_workspace_incremental sha walk cache).unchanged_blobs ++ ub := by
      have := congrArg (fun x => x.1.checkpoint.added_blobs) hpair
      simpa using this.symm
    have hcalls : nidx = ncalls := by
      have := congrArg (fun x => x.2.2) hpair
      simpa using this
    have hnames := sync_batches_names oracle
      (create_upload_batches
        (scan_workspace_incremental sha walk cache).to_upload) 0
      (remove_deleted_from_cache cache
        (scan_workspace_incremental sha walk cache).deleted_paths).1 counter
      ub uc c2 ct2 nidx
      (create_upload_batches_mem_ne_nil _) hsb
    have hub : ub = oracleNames oracle 0 ncalls := by
      rw [hnames.2, Nat.sub_zero, hcalls]
    constructor
    · rw [hadded, hub]
    · intro b hb
      rw [hadded, hub] at hb
      rcases List.mem_append.mp hb with h | h
      · exact Or.inl (scan_unchanged_sub sha walk cache b h)
      · exact Or.inr h

/-- C1 witness: a sync with nothing to scan returns an empty checkpoint
whose `added_blobs` is exactly the (empty) acknowledged-name list. -/
theorem C1_checkpoint_acked_witness :
    ({ checkpoint := { checkpoint_id := none, added_blobs := [],
                       deleted_blobs := [] },
       uploaded_count := 0, unchanged_count := 0,
       deleted_count := 0 } : SyncResult).checkpoint.added_blobs =
      (scan_workspace_incremental (fun _ => "H") []
        BlobsCache.empty).unchanged_blobs ++
        oracleNames (fun _ => some []) 0 0 :=
  (C1_checkpoint_acked (fun _ => "H") (fun _ => some []) []
    BlobsCache.empty 0
    { checkpoint := { checkpoint_id := none, added_blobs := [],
                      deleted_blobs := [] },
      uploaded_count := 0, unchanged_count := 0, deleted_count := 0 }
    BlobsCache.empty 0 rfl).1
